import Mathlib

/-!
# Verification of `sync-keymaps.py`

A shallow embedding of the keymap-synchronisation script, which merges
keyboard shortcuts between a Windows and a Mac IntelliJ keymap XML file.

Modelling conventions, stated once here and referenced from the definitions:

* Keymap documents are modelled as a three-level element tree: a root
  container whose direct children are elements (`action` elements among
  them), whose children are in turn leaf elements (`keyboard-shortcut`
  elements among them).  This matches the external interface of the
  program (a root container holding `action` elements, each holding
  `keyboard-shortcut` children).  Whitespace-only text nodes are not
  modelled: the program never reads text, and its save routine filters
  out all whitespace-only lines, so text nodes are invisible in both the
  merge and the emitted bytes.
* Python's `str.replace` is modelled by `pyReplace` on character lists
  (leftmost, non-overlapping occurrences), evaluated through a fuel
  parameter so that the kernel can compute it.
* Python iterates over `set` objects in an unspecified order.  The sets
  of action ids and of keystrokes are modelled as lists deduplicated
  with `dedupFirst`, which fixes one admissible iteration order.  Every
  property stated below is insensitive to that order (the save routine
  sorts the actions, and the per-action keystroke facts are stated at
  the level of membership).
* `sorted(..., key=...)` in Python is a stable sort by the key; it is
  modelled with `List.insertionSort`, which is also stable, so both
  compute the same list.
* Reading a shortcut's `first-keystroke` attribute yields `None` in
  Python when the attribute is absent, and the script then dies with an
  `AttributeError` inside `convert_shortcut`.  The embedding is total
  (missing attributes are simply skipped), so every theorem about a
  completed run carries the well-formedness hypothesis
  `shortcutsTotal` under which the two agree.  Similarly, actions
  without an `id` attribute make Python's save-time sort raise when a
  `None` key is compared against a string; theorems about saved output
  carry `idsPresent` except where the concrete input provably avoids
  any such comparison.
-/

/-- Lexicographic comparison of character lists by Unicode code point,
the comparison Python uses for `str < str` (and hence for `sorted`). -/
def charsLe : List Char → List Char → Bool
  | [], _ => true
  | _ :: _, [] => false
  | a :: as, b :: bs =>
    if a.toNat < b.toNat then true
    else if b.toNat < a.toNat then false
    else charsLe as bs

/-- Python string `<=` (code-point lexicographic order). -/
def strLe (a b : String) : Bool := charsLe a.data b.data

/-- One pass of Python's `str.replace` with an explicit fuel so that the
definition is structural (the fuel is always instantiated with the
length of the subject list, which suffices for nonempty patterns). -/
def replaceFuel (pat rep : List Char) : Nat → List Char → List Char
  | _, [] => []
  | 0, l => l
  | n + 1, c :: cs =>
    if pat.isPrefixOf (c :: cs) then
      rep ++ replaceFuel pat rep n (List.drop (pat.length - 1) cs)
    else
      c :: replaceFuel pat rep n cs

/-- Python's `subject.replace(pat, rep)` on character lists: replace the
leftmost occurrences of `pat`, left to right, non-overlapping.  (Python
treats an empty pattern specially; the script only ever replaces the
nonempty tokens `ctrl` and `meta`.) -/
def pyReplace (pat rep s : List Char) : List Char := replaceFuel pat rep s.length s

/-- Python's `subject.replace(pat, rep)` on strings. -/
def strReplace (s pat rep : String) : String := String.mk (pyReplace pat.data rep.data s.data)

/-- Python's `pat in s` substring test on character lists. -/
def containsTok (pat : List Char) : List Char → Bool
  | [] => pat.isEmpty
  | c :: cs => pat.isPrefixOf (c :: cs) || containsTok pat cs

/-- The character list of the Windows modifier token `ctrl`. -/
def ctrlTok : List Char := ['c', 't', 'r', 'l']

/-- The character list of the Mac modifier token `meta`. -/
def metaTok : List Char := ['m', 'e', 't', 'a']

/-- `convert_shortcut` from the script: with `to_mac = true` replace
every occurrence of `ctrl` by `meta`, otherwise every `meta` by
`ctrl` — a literal substring replacement. -/
def convert_shortcut (shortcut : String) (to_mac : Bool) : String :=
  if to_mac then strReplace shortcut "ctrl" "meta"
  else strReplace shortcut "meta" "ctrl"

/-! ## The XML document model -/

/-- Attribute list of an element, in document order.  XML forbids
duplicate attribute names, and `ElementTree` keeps document order
(Python ≥ 3.8), so a parsed element yields a duplicate-free ordered
list. -/
abbrev Attrs := List (String × String)

/-- `element.get(name)`: the value of the first attribute called
`name`, if any. -/
def getAttr (attrs : Attrs) (k : String) : Option String :=
  (attrs.find? (fun p => p.1 == k)).map (·.2)

/-- A leaf element: a child of an `action`-level element, e.g. a
`keyboard-shortcut` element. -/
structure LeafElem where
  tag : String
  attrs : Attrs
deriving DecidableEq, Repr

/-- An element that is a direct child of the root container, e.g. an
`action` element. -/
structure MidElem where
  tag : String
  attrs : Attrs
  children : List LeafElem
deriving DecidableEq, Repr

/-- The root container of a keymap document. -/
structure RootElem where
  tag : String
  attrs : Attrs
  children : List MidElem
deriving DecidableEq, Repr

/-- `root.findall('action')`: the direct children of the root whose tag
is `action`, in document order. -/
def rootActions (r : RootElem) : List MidElem :=
  r.children.filter (fun c => c.tag == "action")

/-- `action.findall('keyboard-shortcut')`: the direct children of an
action whose tag is `keyboard-shortcut`, in document order. -/
def shortcutElems (a : MidElem) : List LeafElem :=
  a.children.filter (fun c => c.tag == "keyboard-shortcut")

/-- `action.get('id')`. -/
def actionId (a : MidElem) : Option String := getAttr a.attrs "id"

/-- The keystroke values of an action's `keyboard-shortcut` children:
`{s.get('first-keystroke') for s in action.findall('keyboard-shortcut')}`,
as a list in document order.  A shortcut without the attribute
contributes `None` in Python; it is skipped here (see the header: on
such inputs Python crashes inside `convert_shortcut`, and theorems
assume `shortcutsTotal`). -/
def shortcutSet (a : MidElem) : List String :=
  (shortcutElems a).filterMap (fun s => getAttr s.attrs "first-keystroke")

/-- The actions of `r` carrying the id `i` (`none` = no `id`
attribute), in document order. -/
def keyActions (r : RootElem) (i : Option String) : List MidElem :=
  (rootActions r).filter (fun a => actionId a == i)

/-- Lookup in `{action.get('id'): action for action in root.findall('action')}`:
later actions with the same id overwrite earlier ones in the dict
comprehension, so the lookup returns the last action with the given
id. -/
def actionsDictGet (r : RootElem) (i : Option String) : Option MidElem :=
  (keyActions r i).getLast?

/-- The keystroke set the script reads for key `i` on one side:
the looked-up action's shortcut values, or empty when the dict misses
(the script then synthesises an empty action, whose shortcut set is
empty). -/
def origKeys (r : RootElem) (i : Option String) : List String :=
  match actionsDictGet r i with
  | some a => shortcutSet a
  | none => []

/-- The ids occurring in a document, in document order, with
multiplicity (`windows_actions.keys()` before deduplication). -/
def idKeys (r : RootElem) : List (Option String) :=
  (rootActions r).map actionId

/-- Deduplication keeping the first occurrence of each element; models
a Python `set` as a list with one fixed iteration order. -/
def dedupFirst : List (Option String) → List (Option String)
  | [] => []
  | x :: xs => x :: (dedupFirst xs).filter (fun y => y != x)

/-- Deduplication keeping the first occurrence, for keystroke lists. -/
def dedupFirstS : List String → List String
  | [] => []
  | x :: xs => x :: (dedupFirstS xs).filter (fun y => y != x)

/-! ## The merge engine -/

/-- The element `ET.SubElement(action, 'keyboard-shortcut')` with
`first-keystroke` set to `k`. -/
def mkShortcut (k : String) : LeafElem :=
  ⟨"keyboard-shortcut", [("first-keystroke", k)]⟩

/-- `add_shortcuts(action, shortcuts)`: append a new
`keyboard-shortcut` child for every keystroke of `shortcuts` that is
not already present among the action's `first-keystroke` values.  The
`shortcuts` argument is a Python set, i.e. duplicate-free, which the
callers below ensure with `dedupFirstS`. -/
def add_shortcuts (a : MidElem) (shortcuts : List String) : MidElem :=
  { a with children :=
      a.children ++ (shortcuts.filter (fun k => !((shortcutSet a).contains k))).map mkShortcut }

/-- `ET.SubElement(root, 'action', {'id': action_id})` for a present
id.  For a missing id Python stores a `None`-valued attribute, which is
observationally an absent attribute until a save serialises it;
theorems about saved output assume `idsPresent`, so the `none` case is
modelled as an absent attribute. -/
def mkAction (i : Option String) : MidElem :=
  ⟨"action", (match i with | some s => [("id", s)] | none => []), []⟩

/-- The predicate selecting the action children carrying key `i`. -/
def qFun (i : Option String) (c : MidElem) : Bool :=
  c.tag == "action" && actionId c == i

/-- Apply `f` to the last element of the list satisfying `p` (mutating
the element the id-keyed dict aliases); `none` when no element
matches. -/
def updateLast (p : MidElem → Bool) (f : MidElem → MidElem) : List MidElem → Option (List MidElem)
  | [] => none
  | c :: cs =>
    match updateLast p f cs with
    | some cs' => some (c :: cs')
    | none => if p c then some (f c :: cs) else none

/-- One side of the per-id loop body: fetch-or-synthesise the action
for key `i` and run `add_shortcuts` on it.  In the script the
synthesised action is appended to the root's children and then
mutated; the net effect is appending the already-extended action. -/
def syncOneSide (r : RootElem) (i : Option String) (ks : List String) : RootElem :=
  match updateLast (qFun i) (fun a => add_shortcuts a ks) r.children with
  | some cs => { r with children := cs }
  | none => { r with children := r.children ++ [add_shortcuts (mkAction i) ks] }

/-- The two keystroke unions computed in the loop body for key `i`:
`windows_shortcuts ∪ convert(mac_shortcuts, to_windows)` and
`mac_shortcuts ∪ convert(windows_shortcuts, to_mac)`, read from the
original documents' dicts (each key is processed exactly once, so the
dict entries are unmutated when read). -/
def stepShortcuts (w m : RootElem) (i : Option String) : List String × List String :=
  (dedupFirstS (origKeys w i ++ (origKeys m i).map (fun s => convert_shortcut s false)),
   dedupFirstS (origKeys m i ++ (origKeys w i).map (fun s => convert_shortcut s true)))

/-- The body of `for action_id in all_action_ids`. -/
def syncStep (w m : RootElem) (s : RootElem × RootElem) (i : Option String) : RootElem × RootElem :=
  (syncOneSide s.1 i (stepShortcuts w m i).1, syncOneSide s.2 i (stepShortcuts w m i).2)

/-- The in-memory part of `sync_keymaps`: for every id in the union of
the two documents' id sets, merge the translated keystroke sets into
both documents. -/
def sync_core (w m : RootElem) : RootElem × RootElem :=
  (dedupFirst (idKeys w ++ idKeys m)).foldl (syncStep w m) (w, m)

/-- The action element holding key `i` in the Windows document after
the merge (fetched-and-extended, or synthesised-and-extended). -/
def mergedActionW (w m : RootElem) (i : Option String) : MidElem :=
  match actionsDictGet w i with
  | some a => add_shortcuts a (stepShortcuts w m i).1
  | none => add_shortcuts (mkAction i) (stepShortcuts w m i).1

/-- The action element holding key `i` in the Mac document after the
merge. -/
def mergedActionM (w m : RootElem) (i : Option String) : MidElem :=
  match actionsDictGet m i with
  | some a => add_shortcuts a (stepShortcuts w m i).2
  | none => add_shortcuts (mkAction i) (stepShortcuts w m i).2

/-! ## Saving -/

/-- Attribute-value escaping as performed by `minidom`'s writer (the
value was escaped by `ET.tostring` and unescaped again by
`minidom.parseString` before this, so `minidom`'s escaping is the one
that reaches the file). -/
def escAttr (v : String) : String :=
  strReplace (strReplace (strReplace (strReplace v "&" "&amp;") "<" "&lt;") "\"" "&quot;") ">" "&gt;"

/-- The ` name="value"` rendering of an attribute list, in document
order (Python ≥ 3.8 preserves attribute order end to end). -/
def attrsStr (attrs : Attrs) : String :=
  String.join (attrs.map (fun p => " " ++ p.1 ++ "=\"" ++ escAttr p.2 ++ "\""))

/-- The single pretty-printed line of a leaf element at the given
indentation (minidom writes childless elements as `<tag .../>`). -/
def leafLine (ind : String) (e : LeafElem) : String :=
  ind ++ "<" ++ e.tag ++ attrsStr e.attrs ++ "/>"

/-- The pretty-printed lines of a root child at one level of
indentation (two spaces per level, one tag per line, childless
elements self-closed). -/
def midLines (e : MidElem) : List String :=
  if e.children.isEmpty then
    ["  <" ++ e.tag ++ attrsStr e.attrs ++ "/>"]
  else
    ("  <" ++ e.tag ++ attrsStr e.attrs ++ ">") ::
      (e.children.map (leafLine "    ") ++ ["  </" ++ e.tag ++ ">"])

/-- The pretty-printed document: `toprettyxml(indent='  ')` with
whitespace-only lines removed and the XML declaration stripped, joined
with newlines exactly as the script does (no trailing newline). -/
def serializeRoot (r : RootElem) : String :=
  String.intercalate "\n"
    (if r.children.isEmpty then
      ["<" ++ r.tag ++ attrsStr r.attrs ++ "/>"]
    else
      ("<" ++ r.tag ++ attrsStr r.attrs ++ ">") ::
        ((r.children.map midLines).flatten ++ ["</" ++ r.tag ++ ">"]))

/-- The key order used by `sorted(root.findall('action'), key=lambda a: a.get('id'))`.
Python raises a `TypeError` when it compares a `None` key against a
string; the embedding totalises that comparison with `none` first and
theorems about saving assume `idsPresent` (or inputs on which the sort
performs no such comparison). -/
def leOptStr : Option String → Option String → Bool
  | none, _ => true
  | some _, none => false
  | some a, some b => strLe a b

/-- The sort key order on action elements, as a relation. -/
def keyLE (a b : MidElem) : Prop := leOptStr (actionId a) (actionId b) = true

instance : DecidableRel keyLE := fun _ _ => inferInstanceAs (Decidable (_ = true))

/-- The stable sort of the action children by id performed by
`save_keymap` (Python's `sorted` is stable; `insertionSort` is the
same stable sort). -/
def sortActions (l : List MidElem) : List MidElem := l.insertionSort keyLE

/-- The tree `save_keymap` serialises: all children of the root are
removed and the actions are re-appended sorted by id — every
non-`action` child is dropped. -/
def save_normalize (r : RootElem) : RootElem :=
  { r with children := sortActions (rootActions r) }

/-- `save_keymap`: the exact byte content written to the file. -/
def save_keymap (r : RootElem) : String := serializeRoot (save_normalize r)

/-- `sync_keymaps` on two loaded documents: the pair of byte strings
written back to the Windows and Mac files. -/
def sync_keymaps (w m : RootElem) : String × String :=
  ((save_keymap (sync_core w m).1), (save_keymap (sync_core w m).2))

/-- Running the tool a second time on the files written by
`sync_keymaps`.  Re-parsing the written bytes recovers exactly the
normalized trees `save_normalize (sync_core w m).1/2` (same elements,
same attributes, same order; the pretty-printer's whitespace parses
back into text nodes that neither the merge nor the next save can
observe, and keymap attribute values contain no characters subject to
XML attribute-value normalization). -/
def sync_twice (w m : RootElem) : String × String :=
  sync_keymaps (save_normalize (sync_core w m).1) (save_normalize (sync_core w m).2)

/-! ## The driver with its file system -/

/-- `sync_keymaps(windows_file, mac_file)` at the file level.  `fs`
maps a path to the file's bytes (`none`: unreadable or missing) and
`parse` abstracts the XML parser (`none`: not well-formed).  Both
loads happen before anything is written; an overall `none` models an
uncaught exception, which leaves every file untouched. -/
def sync_keymaps_files (parse : String → Option RootElem) (fs : String → Option String)
    (wp mp : String) : Option (String → Option String) :=
  match (fs wp).bind parse, (fs mp).bind parse with
  | some w, some m =>
    some (fun p =>
      if p == mp then some (sync_keymaps w m).2
      else if p == wp then some (sync_keymaps w m).1
      else fs p)
  | _, _ => none

/-! ## Well-formedness of input documents (the spec's data-model
invariants, under which Python completes without an exception) -/

/-- Every action carries an `id` attribute. -/
abbrev idsPresent (r : RootElem) : Prop :=
  ∀ a ∈ rootActions r, (actionId a).isSome = true

/-- Action ids are unique within the document. -/
abbrev idsUnique (r : RootElem) : Prop := (idKeys r).Nodup

/-- Every `keyboard-shortcut` carries a `first-keystroke` attribute. -/
abbrev shortcutsTotal (r : RootElem) : Prop :=
  ∀ a ∈ rootActions r, ∀ s ∈ shortcutElems a, (getAttr s.attrs "first-keystroke").isSome = true

/-- All three input invariants together. -/
abbrev Wf (r : RootElem) : Prop := idsPresent r ∧ idsUnique r ∧ shortcutsTotal r

/-- No keystroke of the document contains `tok` as a substring. -/
abbrev tokenFree (tok : List Char) (r : RootElem) : Prop :=
  ∀ a ∈ rootActions r, ∀ k ∈ shortcutSet a, containsTok tok k.data = false

/-- `a'` is `a` with only new `keyboard-shortcut` children appended at
the end: same tag, same attributes, the original children as a prefix,
and every appended child a `keyboard-shortcut` element. -/
def actionExtends (a a' : MidElem) : Prop :=
  a'.tag = a.tag ∧ a'.attrs = a.attrs ∧ a.children <+: a'.children ∧
    ∀ s ∈ a'.children.drop a.children.length, s.tag = "keyboard-shortcut"

/-! ## Concrete documents (the spec's scenarios and boundary inputs) -/

/-- The spec's paste scenario, Windows side: action `paste` bound to
`ctrl+v`. -/
def docPasteW : RootElem :=
  ⟨"keymap", [("version", "1"), ("name", "Windows - Fraser"), ("parent", "$default")],
    [⟨"action", [("id", "paste")], [⟨"keyboard-shortcut", [("first-keystroke", "ctrl+v")]⟩]⟩]⟩

/-- The spec's paste scenario, Mac side: action `paste` bound to
`meta+shift+v`. -/
def docPasteM : RootElem :=
  ⟨"keymap", [("version", "1"), ("name", "macOS - Fraser"), ("parent", "Mac OS X 10.5+")],
    [⟨"action", [("id", "paste")], [⟨"keyboard-shortcut", [("first-keystroke", "meta+shift+v")]⟩]⟩]⟩

/-- A Windows document whose keystroke already contains the Mac token
`meta`. -/
def docMetaW : RootElem :=
  ⟨"keymap", [], [⟨"action", [("id", "a")], [⟨"keyboard-shortcut", [("first-keystroke", "meta+x")]⟩]⟩]⟩

/-- A keymap with no actions at all. -/
def docEmptyRoot : RootElem := ⟨"keymap", [], []⟩

/-- A document in which one action already lists the same keystroke
twice. -/
def docDupW : RootElem :=
  ⟨"keymap", [], [⟨"action", [("id", "a")],
    [⟨"keyboard-shortcut", [("first-keystroke", "ctrl+c")]⟩,
     ⟨"keyboard-shortcut", [("first-keystroke", "ctrl+c")]⟩]⟩]⟩

/-- A Windows document whose single action has no `id` attribute. -/
def docNoIdW : RootElem :=
  ⟨"keymap", [], [⟨"action", [], [⟨"keyboard-shortcut", [("first-keystroke", "ctrl+x")]⟩]⟩]⟩

/-- A Mac document whose single action has no `id` attribute and no
shortcuts. -/
def docNoIdM : RootElem :=
  ⟨"keymap", [], [⟨"action", [], []⟩]⟩

/-! ## Lemmas about `pyReplace` (Python's `str.replace`) -/

theorem replaceFuel_nil (pat rep : List Char) (n : Nat) : replaceFuel pat rep n [] = [] := by
  cases n <;> rfl

theorem replaceFuel_succ_pos (pat rep : List Char) (n : Nat) (c : Char) (cs : List Char)
    (h : pat.isPrefixOf (c :: cs) = true) :
    replaceFuel pat rep (n + 1) (c :: cs) =
      rep ++ replaceFuel pat rep n (List.drop (pat.length - 1) cs) := by
  simp [replaceFuel, h]

theorem replaceFuel_succ_neg (pat rep : List Char) (n : Nat) (c : Char) (cs : List Char)
    (h : pat.isPrefixOf (c :: cs) = false) :
    replaceFuel pat rep (n + 1) (c :: cs) = c :: replaceFuel pat rep n cs := by
  simp [replaceFuel, h]

theorem replaceFuel_congr (pat rep : List Char) :
    ∀ n m s, s.length ≤ n → s.length ≤ m → replaceFuel pat rep n s = replaceFuel pat rep m s := by
  intro n
  induction n with
  | zero =>
    intro m s hs _
    have : s = [] := List.eq_nil_of_length_eq_zero (Nat.le_zero.mp hs)
    subst this
    simp [replaceFuel_nil]
  | succ n ih =>
    intro m s hsn hsm
    cases s with
    | nil => simp [replaceFuel_nil]
    | cons c cs =>
      cases m with
      | zero => simp at hsm
      | succ m =>
        by_cases h : pat.isPrefixOf (c :: cs) = true
        · rw [replaceFuel_succ_pos pat rep n c cs h, replaceFuel_succ_pos pat rep m c cs h]
          have hlen : (List.drop (pat.length - 1) cs).length ≤ cs.length := by
            simp [List.length_drop]
          have h1 : (List.drop (pat.length - 1) cs).length ≤ n :=
            le_trans hlen (Nat.le_of_succ_le_succ hsn)
          have h2 : (List.drop (pat.length - 1) cs).length ≤ m :=
            le_trans hlen (Nat.le_of_succ_le_succ hsm)
          rw [ih m _ h1 h2]
        · rw [Bool.not_eq_true] at h
          rw [replaceFuel_succ_neg pat rep n c cs h, replaceFuel_succ_neg pat rep m c cs h]
          rw [ih m cs (Nat.le_of_succ_le_succ hsn) (Nat.le_of_succ_le_succ hsm)]

theorem replaceFuel_eq_pyReplace (pat rep : List Char) (n : Nat) (s : List Char)
    (h : s.length ≤ n) : replaceFuel pat rep n s = pyReplace pat rep s :=
  replaceFuel_congr pat rep n s.length s h le_rfl

theorem pyReplace_nil (pat rep : List Char) : pyReplace pat rep [] = [] := rfl

theorem pyReplace_cons_pos (pat rep : List Char) (c : Char) (cs : List Char)
    (h : pat.isPrefixOf (c :: cs) = true) :
    pyReplace pat rep (c :: cs) = rep ++ pyReplace pat rep (List.drop (pat.length - 1) cs) := by
  show replaceFuel pat rep (cs.length + 1) (c :: cs) = _
  rw [replaceFuel_succ_pos pat rep cs.length c cs h]
  rw [replaceFuel_eq_pyReplace pat rep cs.length _ (by simp [List.length_drop])]

theorem pyReplace_cons_neg (pat rep : List Char) (c : Char) (cs : List Char)
    (h : pat.isPrefixOf (c :: cs) = false) :
    pyReplace pat rep (c :: cs) = c :: pyReplace pat rep cs := by
  show replaceFuel pat rep (cs.length + 1) (c :: cs) = _
  rw [replaceFuel_succ_neg pat rep cs.length c cs h]
  rw [replaceFuel_eq_pyReplace pat rep cs.length cs le_rfl]

/-- Consuming an exact pattern occurrence planted at the front. -/
theorem pyReplace_append_self (q p X : List Char) (hq : q ≠ []) :
    pyReplace q p (q ++ X) = p ++ pyReplace q p X := by
  cases q with
  | nil => exact absurd rfl hq
  | cons qc qr =>
    have hpf : (qc :: qr).isPrefixOf (qc :: qr ++ X) = true :=
      List.isPrefixOf_iff_prefix.mpr (List.prefix_append _ _)
    have := pyReplace_cons_pos (qc :: qr) p qc (qr ++ X) (by simp)
    simp only [List.cons_append] at this ⊢
    rw [this]
    simp [List.drop_left]

theorem containsTok_cons_false (pat : List Char) (c : Char) (cs : List Char)
    (h : containsTok pat (c :: cs) = false) :
    pat.isPrefixOf (c :: cs) = false ∧ containsTok pat cs = false := by
  simpa [containsTok, Bool.or_eq_false_iff] using h

theorem containsTok_drop (pat : List Char) :
    ∀ (n : Nat) (s : List Char), containsTok pat s = false →
      containsTok pat (List.drop n s) = false := by
  intro n
  induction n with
  | zero => intro s h; simpa using h
  | succ n ih =>
    intro s h
    cases s with
    | nil => simpa using h
    | cons c cs =>
      rw [List.drop_succ_cons]
      exact ih cs (containsTok_cons_false pat c cs h).2

/-- A prefix of `q ++ X` no longer than `q` is a prefix of `q`. -/
theorem prefix_append_le (v q X : List Char) (hle : v.length ≤ q.length)
    (h : v <+: q ++ X) : v <+: q := by
  rw [List.prefix_iff_eq_take] at h ⊢
  rw [h]
  rw [List.take_append_eq_append_take]
  have : v.length - q.length = 0 := Nat.sub_eq_zero_of_le hle
  simp [this]

/-- If `v` is the tail of the unbordered pattern `q` after a nonempty
head `u`, and `v` is a prefix of a replacement result, then `v` was
already a prefix of the subject: a fresh copy of `q` planted by the
replacement cannot supply a proper nonempty suffix of `q` as a prefix
without creating a border of `q`. -/
theorem prefix_pyReplace_split (p q : List Char)
    (hqb : ∀ k, k < q.length → 0 < k → List.take k q ≠ List.drop (q.length - k) q) :
    ∀ (n : Nat) (cs u v : List Char), cs.length ≤ n → q = u ++ v → u ≠ [] →
      v.isPrefixOf (pyReplace p q cs) = true → v.isPrefixOf cs = true := by
  intro n
  induction n with
  | zero =>
    intro cs u v hlen _ _ hv
    have : cs = [] := List.eq_nil_of_length_eq_zero (Nat.le_zero.mp hlen)
    subst this
    simpa [pyReplace_nil] using hv
  | succ n ih =>
    intro cs u v hlen hquv hu hv
    cases hvnil : v with
    | nil =>
      subst hvnil
      cases cs <;> simp [List.isPrefixOf]
    | cons vc v' =>
      subst hvnil
      cases cs with
      | nil => simp [pyReplace_nil, List.isPrefixOf] at hv
      | cons c cs' =>
        have hlenq : q.length = u.length + (vc :: v').length := by
          rw [hquv]; simp [List.length_append]
        by_cases hpf : p.isPrefixOf (c :: cs') = true
        · exfalso
          rw [pyReplace_cons_pos p q c cs' hpf] at hv
          have hpre : (vc :: v') <+: q := by
            refine prefix_append_le _ q _ ?_ (List.isPrefixOf_iff_prefix.mp hv)
            omega
          have hsuf : (vc :: v') <:+ q := ⟨u, hquv.symm⟩
          have hu1 : 0 < u.length := List.length_pos.mpr hu
          have hlt : (vc :: v').length < q.length := by omega
          refine hqb (vc :: v').length hlt (by simp) ?_
          rw [← List.prefix_iff_eq_take.mp hpre, ← List.suffix_iff_eq_drop.mp hsuf]
        · rw [Bool.not_eq_true] at hpf
          rw [pyReplace_cons_neg p q c cs' hpf] at hv
          simp only [List.isPrefixOf, Bool.and_eq_true, beq_iff_eq] at hv ⊢
          refine ⟨hv.1, ?_⟩
          refine ih cs' (u ++ [vc]) v' (Nat.le_of_succ_le_succ hlen) ?_ (by simp) hv.2
          rw [hquv]
          simp

/-- The round-trip law for Python's substring replace: if the subject
contains no occurrence of the unbordered pattern `q`, replacing `p` by
`q` and then `q` by `p` restores the subject. -/
theorem pyReplace_roundtrip (p q : List Char) (hp : p ≠ []) (hq : q ≠ [])
    (hqb : ∀ k, k < q.length → 0 < k → List.take k q ≠ List.drop (q.length - k) q) :
    ∀ (n : Nat) (s : List Char), s.length ≤ n → containsTok q s = false →
      pyReplace q p (pyReplace p q s) = s := by
  intro n
  induction n with
  | zero =>
    intro s hlen _
    have : s = [] := List.eq_nil_of_length_eq_zero (Nat.le_zero.mp hlen)
    subst this
    simp [pyReplace_nil]
  | succ n ih =>
    intro s hlen hs
    cases s with
    | nil => simp [pyReplace_nil]
    | cons c cs =>
      obtain ⟨hs1, hs2⟩ := containsTok_cons_false q c cs hs
      by_cases hpf : p.isPrefixOf (c :: cs) = true
      · rw [pyReplace_cons_pos p q c cs hpf]
        rw [pyReplace_append_self q p _ hq]
        have hdl : (List.drop (p.length - 1) cs).length ≤ n := by
          simp only [List.length_drop]
          simp only [List.length_cons] at hlen
          omega
        rw [ih _ hdl (containsTok_drop q _ _ hs2)]
        obtain ⟨t, ht⟩ := List.isPrefixOf_iff_prefix.mp hpf
        have hteq : List.drop (p.length - 1) cs = t := by
          have h1 : List.drop p.length (p ++ t) = t := List.drop_left p t
          rw [ht] at h1
          cases hpnil : p with
          | nil => exact absurd hpnil hp
          | cons pc pr =>
            rw [hpnil] at h1
            simpa [List.drop_succ_cons] using h1
        rw [hteq, ht]
      · rw [Bool.not_eq_true] at hpf
        rw [pyReplace_cons_neg p q c cs hpf]
        have hq2 : q.isPrefixOf (c :: pyReplace p q cs) = false := by
          by_contra hcon
          rw [Bool.not_eq_false] at hcon
          cases hqnil : q with
          | nil => exact absurd hqnil hq
          | cons qc qr =>
            rw [hqnil] at hcon
            simp only [List.isPrefixOf, Bool.and_eq_true, beq_iff_eq] at hcon
            obtain ⟨hqc, hqr⟩ := hcon
            cases hqrnil : qr with
            | nil =>
              rw [hqnil, hqrnil, hqc] at hs1
              simp [List.isPrefixOf] at hs1
            | cons b bs =>
              rw [← hqnil] at hqr
              have hsplit : (b :: bs).isPrefixOf cs = true := by
                refine prefix_pyReplace_split p q hqb cs.length cs [qc] (b :: bs)
                  le_rfl ?_ (by simp) ?_
                · rw [hqnil, hqrnil]; rfl
                · rw [← hqrnil]; exact hqr
              have htrue : ((qc == c) && qr.isPrefixOf cs) = true := by
                rw [hqc, hqrnil]
                simp [hsplit]
              have hlhs : (qc :: qr).isPrefixOf (c :: cs) = ((qc == c) && qr.isPrefixOf cs) := rfl
              rw [hqnil, hlhs, htrue] at hs1
              exact absurd hs1 (by simp)
        rw [pyReplace_cons_neg q p _ _ hq2]
        rw [ih cs (by simpa [List.length_cons, Nat.succ_le_succ_iff] using hlen) hs2]

/-- Round trip Windows → Mac → Windows: a keystroke with no `meta`
occurrence survives `convert_shortcut(·, to_mac=True)` followed by
`convert_shortcut(·, to_mac=False)`. -/
theorem convert_shortcut_roundtrip_win (s : String) (h : containsTok metaTok s.data = false) :
    convert_shortcut (convert_shortcut s true) false = s := by
  show String.mk (pyReplace "meta".data "ctrl".data
    (String.mk (pyReplace "ctrl".data "meta".data s.data)).data) = s
  have := pyReplace_roundtrip "ctrl".data "meta".data (by decide) (by decide)
    (by decide) s.data.length s.data le_rfl (by exact h)
  show String.mk (pyReplace "meta".data "ctrl".data (pyReplace "ctrl".data "meta".data s.data)) = s
  rw [this]

/-- Round trip Mac → Windows → Mac: a keystroke with no `ctrl`
occurrence survives `convert_shortcut(·, to_mac=False)` followed by
`convert_shortcut(·, to_mac=True)`. -/
theorem convert_shortcut_roundtrip_mac (s : String) (h : containsTok ctrlTok s.data = false) :
    convert_shortcut (convert_shortcut s false) true = s := by
  show String.mk (pyReplace "ctrl".data "meta".data
    (String.mk (pyReplace "meta".data "ctrl".data s.data)).data) = s
  have := pyReplace_roundtrip "meta".data "ctrl".data (by decide) (by decide)
    (by decide) s.data.length s.data le_rfl (by exact h)
  show String.mk (pyReplace "ctrl".data "meta".data (pyReplace "meta".data "ctrl".data s.data)) = s
  rw [this]

/-! ## Lemmas about the list helpers -/

theorem mem_dedupFirst (x : Option String) : ∀ l, x ∈ dedupFirst l ↔ x ∈ l := by
  intro l
  induction l with
  | nil => simp [dedupFirst]
  | cons a l ih =>
    by_cases hxa : x = a
    · simp [dedupFirst, hxa]
    · simp [dedupFirst, List.mem_filter, ih, hxa, bne_iff_ne]

theorem nodup_dedupFirst : ∀ l, (dedupFirst l).Nodup := by
  intro l
  induction l with
  | nil => simp [dedupFirst]
  | cons a l ih =>
    rw [dedupFirst, List.nodup_cons]
    constructor
    · intro hmem
      have := (List.mem_filter.mp hmem).2
      simp [bne_iff_ne] at this
    · exact ih.filter _

theorem mem_dedupFirstS (x : String) : ∀ l, x ∈ dedupFirstS l ↔ x ∈ l := by
  intro l
  induction l with
  | nil => simp [dedupFirstS]
  | cons a l ih =>
    by_cases hxa : x = a
    · simp [dedupFirstS, hxa]
    · simp [dedupFirstS, List.mem_filter, ih, hxa, bne_iff_ne]

theorem nodup_dedupFirstS : ∀ l, (dedupFirstS l).Nodup := by
  intro l
  induction l with
  | nil => simp [dedupFirstS]
  | cons a l ih =>
    rw [dedupFirstS, List.nodup_cons]
    constructor
    · intro hmem
      have := (List.mem_filter.mp hmem).2
      simp [bne_iff_ne] at this
    · exact ih.filter _

theorem updateLast_cons_found {p : MidElem → Bool} {f : MidElem → MidElem} {cs cs' : List MidElem}
    (c : MidElem) (h : updateLast p f cs = some cs') :
    updateLast p f (c :: cs) = some (c :: cs') := by
  simp [updateLast, h]

theorem updateLast_cons_miss {p : MidElem → Bool} {f : MidElem → MidElem} {cs : List MidElem}
    (c : MidElem) (h : updateLast p f cs = none) :
    updateLast p f (c :: cs) = if p c then some (f c :: cs) else none := by
  simp [updateLast, h]

theorem updateLast_none_iff (p : MidElem → Bool) (f : MidElem → MidElem) :
    ∀ l, updateLast p f l = none ↔ ∀ x ∈ l, p x = false := by
  intro l
  induction l with
  | nil => simp [updateLast]
  | cons c cs ih =>
    cases h : updateLast p f cs with
    | some cs' =>
      rw [updateLast_cons_found c h]
      simp only [List.forall_mem_cons]
      constructor
      · intro hc; exact absurd hc (by simp)
      · intro hall
        have hnone : updateLast p f cs = none := (ih.mpr hall.2)
        rw [h] at hnone
        exact absurd hnone (by simp)
    | none =>
      rw [updateLast_cons_miss c h]
      by_cases hc : p c = true
      · simp [hc, List.forall_mem_cons]
      · rw [Bool.not_eq_true] at hc
        simp [hc, List.forall_mem_cons]
        exact (ih.mp h)

theorem updateLast_some_split (p : MidElem → Bool) (f : MidElem → MidElem) :
    ∀ l l', updateLast p f l = some l' →
      ∃ u x v, l = u ++ x :: v ∧ l' = u ++ f x :: v ∧ p x = true ∧ ∀ y ∈ v, p y = false := by
  intro l
  induction l with
  | nil => intro l' h; simp [updateLast] at h
  | cons c cs ih =>
    intro l' h
    cases hcs : updateLast p f cs with
    | some cs' =>
      rw [updateLast_cons_found c hcs] at h
      obtain ⟨u, x, v, h1, h2, h3, h4⟩ := ih cs' hcs
      injection h with h
      refine ⟨c :: u, x, v, ?_, ?_, h3, h4⟩
      · rw [h1]; rfl
      · rw [← h, h2]; rfl
    | none =>
      rw [updateLast_cons_miss c hcs] at h
      by_cases hc : p c = true
      · rw [if_pos hc] at h
        injection h with h
        exact ⟨[], c, cs, rfl, by rw [← h]; rfl, hc,
          (updateLast_none_iff p f cs).mp hcs⟩
      · rw [if_neg (by simp [Bool.not_eq_true] at hc; simp [hc])] at h
        exact absurd h (by simp)

/-! ## Lemmas about the document model and the merge primitives -/

theorem keyActions_eq_filter (r : RootElem) (i : Option String) :
    keyActions r i = r.children.filter (qFun i) := by
  unfold keyActions rootActions
  rw [List.filter_filter]
  apply List.filter_congr
  intro a _
  simp [qFun, Bool.and_comm]

theorem add_shortcuts_tag (a : MidElem) (ks : List String) :
    (add_shortcuts a ks).tag = a.tag := rfl

theorem add_shortcuts_attrs (a : MidElem) (ks : List String) :
    (add_shortcuts a ks).attrs = a.attrs := rfl

theorem add_shortcuts_actionId (a : MidElem) (ks : List String) :
    actionId (add_shortcuts a ks) = actionId a := rfl

theorem qFun_add_shortcuts (i : Option String) (a : MidElem) (ks : List String) :
    qFun i (add_shortcuts a ks) = qFun i a := rfl

theorem actionId_mkAction (i : Option String) : actionId (mkAction i) = i := by
  cases i <;> rfl

theorem mkAction_tag (i : Option String) : (mkAction i).tag = "action" := rfl

theorem qFun_mkAction (i : Option String) : qFun i (mkAction i) = true := by
  simp [qFun, actionId_mkAction, mkAction_tag]

theorem qFun_true_iff (i : Option String) (c : MidElem) :
    qFun i c = true ↔ c.tag = "action" ∧ actionId c = i := by
  simp [qFun]

theorem shortcutSet_add_shortcuts (a : MidElem) (ks : List String) :
    shortcutSet (add_shortcuts a ks) =
      shortcutSet a ++ ks.filter (fun k => !((shortcutSet a).contains k)) := by
  show ((a.children ++ _).filter _).filterMap _ = _
  rw [List.filter_append, List.filterMap_append]
  show shortcutSet a ++ _ = _
  congr 1
  rw [List.filter_map]
  have hall : (ks.filter (fun k => !((shortcutSet a).contains k))).filter
      ((fun c => c.tag == "keyboard-shortcut") ∘ mkShortcut) =
      ks.filter (fun k => !((shortcutSet a).contains k)) := by
    apply List.filter_eq_self.mpr
    intro k _
    rfl
  rw [hall, List.filterMap_map]
  have : ((fun s => getAttr s.attrs "first-keystroke") ∘ mkShortcut) =
      fun k => some k := by
    funext k
    rfl
  rw [this]
  simp

theorem mem_shortcutSet_add (a : MidElem) (ks : List String) (k : String) :
    k ∈ shortcutSet (add_shortcuts a ks) ↔ k ∈ shortcutSet a ∨ k ∈ ks := by
  rw [shortcutSet_add_shortcuts]
  by_cases hk : k ∈ shortcutSet a
  · simp [hk]
  · simp [hk, List.mem_filter]

theorem nodup_shortcutSet_add (a : MidElem) (ks : List String)
    (h1 : (shortcutSet a).Nodup) (h2 : ks.Nodup) :
    (shortcutSet (add_shortcuts a ks)).Nodup := by
  rw [shortcutSet_add_shortcuts]
  refine h1.append (h2.filter _) ?_
  rw [List.disjoint_left]
  intro k hk1 hk2
  have := (List.mem_filter.mp hk2).2
  simp at this
  exact this hk1

/-- When nothing remains to add, `add_shortcuts` is the identity. -/
theorem add_shortcuts_id (a : MidElem) (ks : List String)
    (h : ∀ k ∈ ks, k ∈ shortcutSet a) : add_shortcuts a ks = a := by
  unfold add_shortcuts
  have : ks.filter (fun k => !((shortcutSet a).contains k)) = [] := by
    apply List.filter_eq_nil_iff.mpr
    intro k hk
    simp [h k hk]
  rw [this]
  simp

/-! ## The merge step and the fold over action ids -/

theorem syncOneSide_split (r : RootElem) (i : Option String) (ks : List String) :
    ((syncOneSide r i ks).tag = r.tag ∧ (syncOneSide r i ks).attrs = r.attrs) ∧
    ((∃ u x v, r.children = u ++ x :: v ∧
        (syncOneSide r i ks).children = u ++ add_shortcuts x ks :: v ∧
        qFun i x = true ∧ ∀ y ∈ v, qFun i y = false) ∨
      ((syncOneSide r i ks).children = r.children ++ [add_shortcuts (mkAction i) ks] ∧
        ∀ y ∈ r.children, qFun i y = false)) := by
  cases h : updateLast (qFun i) (fun a => add_shortcuts a ks) r.children with
  | some cs =>
    have he : syncOneSide r i ks = { r with children := cs } := by
      unfold syncOneSide
      rw [h]
    obtain ⟨u, x, v, h1, h2, h3, h4⟩ := updateLast_some_split _ _ _ _ h
    rw [he]
    exact ⟨⟨rfl, rfl⟩, Or.inl ⟨u, x, v, h1, h2, h3, h4⟩⟩
  | none =>
    have he : syncOneSide r i ks =
        { r with children := r.children ++ [add_shortcuts (mkAction i) ks] } := by
      unfold syncOneSide
      rw [h]
    rw [he]
    exact ⟨⟨rfl, rfl⟩, Or.inr ⟨rfl, (updateLast_none_iff _ _ _).mp h⟩⟩

theorem syncOneSide_tag (r : RootElem) (i : Option String) (ks : List String) :
    (syncOneSide r i ks).tag = r.tag := (syncOneSide_split r i ks).1.1

theorem syncOneSide_attrs (r : RootElem) (i : Option String) (ks : List String) :
    (syncOneSide r i ks).attrs = r.attrs := (syncOneSide_split r i ks).1.2

/-- Merging key `j` leaves the actions of any other key `i` untouched. -/
theorem filter_syncOneSide_other (r : RootElem) (i j : Option String) (ks : List String)
    (hij : j ≠ i) :
    (syncOneSide r j ks).children.filter (qFun i) = r.children.filter (qFun i) := by
  rcases (syncOneSide_split r j ks).2 with ⟨u, x, v, h1, h2, h3, h4⟩ | ⟨h1, h2⟩
  · have hobt := (qFun_true_iff j x).mp h3
    have hx : qFun i x = false := by
      simpa [qFun, hobt.1, hobt.2] using hij
    have hfx : qFun i (add_shortcuts x ks) = false := by
      rw [qFun_add_shortcuts]
      exact hx
    rw [h1, h2, List.filter_append, List.filter_append]
    congr 1
    simp [List.filter_cons, hx, hfx]
  · have hnew : qFun i (add_shortcuts (mkAction j) ks) = false := by
      rw [qFun_add_shortcuts]
      simpa [qFun, mkAction_tag, actionId_mkAction] using hij
    rw [h1, List.filter_append]
    simp [List.filter_cons, hnew]

/-- Merging key `i` when exactly one action carries it: the action is
extended in place. -/
theorem filter_syncOneSide_self_found (r : RootElem) (i : Option String) (ks : List String)
    (x0 : MidElem) (hx : r.children.filter (qFun i) = [x0]) :
    (syncOneSide r i ks).children.filter (qFun i) = [add_shortcuts x0 ks] := by
  rcases (syncOneSide_split r i ks).2 with ⟨u, x, v, h1, h2, h3, h4⟩ | ⟨h1, h2⟩
  · have hv : v.filter (qFun i) = [] := List.filter_eq_nil_iff.mpr (by
      intro y hy
      simp [h4 y hy])
    rw [h1, List.filter_append] at hx
    simp only [List.filter_cons, h3, if_pos, hv] at hx
    cases hfu : u.filter (qFun i) with
    | cons a b =>
      rw [hfu] at hx
      simp at hx
    | nil =>
      rw [hfu] at hx
      simp at hx
      subst hx
      rw [h2, List.filter_append, hfu]
      simp [List.filter_cons, qFun_add_shortcuts, h3, hv]
  · exfalso
    have hnil : r.children.filter (qFun i) = [] := List.filter_eq_nil_iff.mpr (by
      intro y hy
      simp [h2 y hy])
    rw [hx] at hnil
    exact absurd hnil (by simp)

/-- Merging key `i` when no action carries it: a fresh extended action
is appended. -/
theorem filter_syncOneSide_self_miss (r : RootElem) (i : Option String) (ks : List String)
    (hx : r.children.filter (qFun i) = []) :
    (syncOneSide r i ks).children.filter (qFun i) = [add_shortcuts (mkAction i) ks] := by
  rcases (syncOneSide_split r i ks).2 with ⟨u, x, v, h1, h2, h3, h4⟩ | ⟨h1, h2⟩
  · exfalso
    have hxmem : x ∈ r.children := by
      rw [h1]
      simp
    have hfalse : qFun i x = false := by
      have := List.filter_eq_nil_iff.mp hx x hxmem
      simpa using this
    rw [hfalse] at h3
    exact absurd h3 (by simp)
  · have hnew : qFun i (add_shortcuts (mkAction i) ks) = true := by
      rw [qFun_add_shortcuts]
      exact qFun_mkAction i
    rw [h1, List.filter_append, hx]
    simp [List.filter_cons, hnew]

theorem foldl_invariant {α : Type} {β : Type} (P : β → Prop) (step : β → α → β)
    (l : List α) (init : β) (h0 : P init)
    (hstep : ∀ s i, i ∈ l → P s → P (step s i)) : P (l.foldl step init) := by
  induction l generalizing init with
  | nil => exact h0
  | cons a l ih =>
    exact ih (step init a) (hstep init a (by simp) h0)
      (fun s i hi hs => hstep s i (by simp [hi]) hs)

/-- The central per-id characterisation of `sync_core`: when at most
one action on each side carries key `i` and `i` occurs in at least one
document, each merged document contains exactly one action with key
`i`, namely the fetched-or-synthesised action extended by
`add_shortcuts` with the translated union of both keystroke sets. -/
theorem sync_core_keyActions (w m : RootElem) (i : Option String)
    (hw : (keyActions w i).length ≤ 1) (hm : (keyActions m i).length ≤ 1)
    (hi : i ∈ idKeys w ∨ i ∈ idKeys m) :
    keyActions (sync_core w m).1 i = [mergedActionW w m i] ∧
    keyActions (sync_core w m).2 i = [mergedActionM w m i] := by
  have himem : i ∈ dedupFirst (idKeys w ++ idKeys m) :=
    (mem_dedupFirst i _).mpr (List.mem_append.mpr hi)
  obtain ⟨u, v, huv⟩ := List.append_of_mem himem
  have hnd : (u ++ i :: v).Nodup := by
    have := nodup_dedupFirst (idKeys w ++ idKeys m)
    rwa [huv] at this
  have hiu : i ∉ u := by
    rcases List.nodup_append.mp hnd with ⟨-, -, hdisj⟩
    intro hmem
    exact hdisj hmem (by simp)
  have hiv : i ∉ v := by
    rcases List.nodup_append.mp hnd with ⟨-, hcons, -⟩
    exact (List.nodup_cons.mp hcons).1
  unfold sync_core
  rw [huv, List.foldl_append, List.foldl_cons]
  have hu : (List.foldl (syncStep w m) (w, m) u).1.children.filter (qFun i) =
        w.children.filter (qFun i) ∧
      (List.foldl (syncStep w m) (w, m) u).2.children.filter (qFun i) =
        m.children.filter (qFun i) := by
    refine foldl_invariant
      (fun s => s.1.children.filter (qFun i) = w.children.filter (qFun i) ∧
        s.2.children.filter (qFun i) = m.children.filter (qFun i)) _ u (w, m) ⟨rfl, rfl⟩ ?_
    intro s j hj hs
    have hji : j ≠ i := fun h => hiu (h ▸ hj)
    constructor
    · rw [show (syncStep w m s j).1 = syncOneSide s.1 j (stepShortcuts w m j).1 from rfl,
        filter_syncOneSide_other s.1 i j _ hji]
      exact hs.1
    · rw [show (syncStep w m s j).2 = syncOneSide s.2 j (stepShortcuts w m j).2 from rfl,
        filter_syncOneSide_other s.2 i j _ hji]
      exact hs.2
  have hstep1 : (syncStep w m (List.foldl (syncStep w m) (w, m) u) i).1.children.filter (qFun i) =
      [mergedActionW w m i] := by
    rw [show (syncStep w m (List.foldl (syncStep w m) (w, m) u) i).1 =
      syncOneSide (List.foldl (syncStep w m) (w, m) u).1 i (stepShortcuts w m i).1 from rfl]
    cases hk : keyActions w i with
    | nil =>
      have hmw : mergedActionW w m i = add_shortcuts (mkAction i) (stepShortcuts w m i).1 := by
        simp [mergedActionW, actionsDictGet, hk]
      rw [hmw]
      apply filter_syncOneSide_self_miss
      rw [hu.1, ← keyActions_eq_filter, hk]
    | cons x0 xs =>
      have hxs : xs = [] := by
        have hlen := hw
        rw [hk] at hlen
        simpa using hlen
      subst hxs
      have hmw : mergedActionW w m i = add_shortcuts x0 (stepShortcuts w m i).1 := by
        simp [mergedActionW, actionsDictGet, hk]
      rw [hmw]
      apply filter_syncOneSide_self_found
      rw [hu.1, ← keyActions_eq_filter, hk]
  have hstep2 : (syncStep w m (List.foldl (syncStep w m) (w, m) u) i).2.children.filter (qFun i) =
      [mergedActionM w m i] := by
    rw [show (syncStep w m (List.foldl (syncStep w m) (w, m) u) i).2 =
      syncOneSide (List.foldl (syncStep w m) (w, m) u).2 i (stepShortcuts w m i).2 from rfl]
    cases hk : keyActions m i with
    | nil =>
      have hmm : mergedActionM w m i = add_shortcuts (mkAction i) (stepShortcuts w m i).2 := by
        simp [mergedActionM, actionsDictGet, hk]
      rw [hmm]
      apply filter_syncOneSide_self_miss
      rw [hu.2, ← keyActions_eq_filter, hk]
    | cons x0 xs =>
      have hxs : xs = [] := by
        have hlen := hm
        rw [hk] at hlen
        simpa using hlen
      subst hxs
      have hmm : mergedActionM w m i = add_shortcuts x0 (stepShortcuts w m i).2 := by
        simp [mergedActionM, actionsDictGet, hk]
      rw [hmm]
      apply filter_syncOneSide_self_found
      rw [hu.2, ← keyActions_eq_filter, hk]
  have hvfold : (List.foldl (syncStep w m) (syncStep w m (List.foldl (syncStep w m) (w, m) u) i) v).1.children.filter (qFun i) =
        [mergedActionW w m i] ∧
      (List.foldl (syncStep w m) (syncStep w m (List.foldl (syncStep w m) (w, m) u) i) v).2.children.filter (qFun i) =
        [mergedActionM w m i] := by
    refine foldl_invariant
      (fun (s : RootElem × RootElem) => s.1.children.filter (qFun i) = [mergedActionW w m i] ∧
        s.2.children.filter (qFun i) = [mergedActionM w m i]) _ v _ ⟨hstep1, hstep2⟩ ?_
    intro s j hj hs
    have hji : j ≠ i := fun h => hiv (h ▸ hj)
    constructor
    · rw [show (syncStep w m s j).1 = syncOneSide s.1 j (stepShortcuts w m j).1 from rfl,
        filter_syncOneSide_other s.1 i j _ hji]
      exact hs.1
    · rw [show (syncStep w m s j).2 = syncOneSide s.2 j (stepShortcuts w m j).2 from rfl,
        filter_syncOneSide_other s.2 i j _ hji]
      exact hs.2
  exact ⟨by rw [keyActions_eq_filter]; exact hvfold.1,
    by rw [keyActions_eq_filter]; exact hvfold.2⟩

/-! ## The sort key order -/

theorem charsLe_refl : ∀ l, charsLe l l = true := by
  intro l
  induction l with
  | nil => rfl
  | cons a as ih => simp [charsLe, ih]

theorem charsLe_total : ∀ l1 l2, charsLe l1 l2 = true ∨ charsLe l2 l1 = true := by
  intro l1
  induction l1 with
  | nil => intro l2; left; rfl
  | cons a as ih =>
    intro l2
    cases l2 with
    | nil => right; rfl
    | cons b bs =>
      by_cases hab : a.toNat < b.toNat
      · left; simp [charsLe, hab]
      · by_cases hba : b.toNat < a.toNat
        · right; simp [charsLe, hba]
        · rcases ih bs with h | h
          · left; simp [charsLe, hab, hba, h]
          · right; simp [charsLe, hab, hba, h]

theorem charsLe_trans : ∀ l1 l2 l3, charsLe l1 l2 = true → charsLe l2 l3 = true →
    charsLe l1 l3 = true := by
  intro l1
  induction l1 with
  | nil => intro l2 l3 _ _; rfl
  | cons a as ih =>
    intro l2 l3 h12 h23
    cases l2 with
    | nil => simp [charsLe] at h12
    | cons b bs =>
      cases l3 with
      | nil => simp [charsLe] at h23
      | cons c cs =>
        simp only [charsLe] at h12 h23 ⊢
        by_cases hab : a.toNat < b.toNat
        · by_cases hbc : b.toNat < c.toNat
          · simp [Nat.lt_trans hab hbc]
          · rw [if_neg hbc] at h23
            by_cases hcb : c.toNat < b.toNat
            · rw [if_pos hcb] at h23; exact absurd h23 (by simp)
            · have : a.toNat < c.toNat := by omega
              simp [this]
        · rw [if_neg hab] at h12
          by_cases hba : b.toNat < a.toNat
          · rw [if_pos hba] at h12; exact absurd h12 (by simp)
          · rw [if_neg hba] at h12
            by_cases hbc : b.toNat < c.toNat
            · have : a.toNat < c.toNat := by omega
              simp [this]
            · rw [if_neg hbc] at h23
              by_cases hcb : c.toNat < b.toNat
              · rw [if_pos hcb] at h23; exact absurd h23 (by simp)
              · rw [if_neg hcb] at h23
                have hac : ¬ a.toNat < c.toNat := by omega
                have hca : ¬ c.toNat < a.toNat := by omega
                simp [hac, hca]
                exact ih bs cs h12 h23

theorem leOptStr_refl (i : Option String) : leOptStr i i = true := by
  cases i with
  | none => rfl
  | some s => exact charsLe_refl s.data

theorem leOptStr_total (i j : Option String) : leOptStr i j = true ∨ leOptStr j i = true := by
  cases i with
  | none => left; rfl
  | some a =>
    cases j with
    | none => right; rfl
    | some b => exact charsLe_total a.data b.data

theorem leOptStr_trans (i j k : Option String) (h1 : leOptStr i j = true)
    (h2 : leOptStr j k = true) : leOptStr i k = true := by
  cases i with
  | none => rfl
  | some a =>
    cases j with
    | none => simp [leOptStr] at h1
    | some b =>
      cases k with
      | none => simp [leOptStr] at h2
      | some c => exact charsLe_trans a.data b.data c.data h1 h2

theorem keyLE_total : ∀ a b : MidElem, keyLE a b ∨ keyLE b a := by
  intro a b
  exact leOptStr_total (actionId a) (actionId b)

theorem keyLE_trans : ∀ a b c : MidElem, keyLE a b → keyLE b c → keyLE a c := by
  intro a b c h1 h2
  exact leOptStr_trans _ _ _ h1 h2

/-! ## Stability of the save-time sort -/

theorem filter_orderedInsert_key (k : Option String) (x : MidElem) :
    ∀ l : List MidElem,
      (List.orderedInsert keyLE x l).filter (fun a => actionId a == k) =
        (if actionId x == k then [x] else []) ++ l.filter (fun a => actionId a == k) := by
  intro l
  induction l with
  | nil => simp [List.orderedInsert, List.filter_cons]
  | cons y ys ih =>
    by_cases hxy : keyLE x y
    · rw [List.orderedInsert, if_pos hxy]
      by_cases hyk : (actionId y == k) = true
      · by_cases hxk : (actionId x == k) = true
        · simp [List.filter_cons, hxk, hyk]
        · simp [List.filter_cons, hxk, hyk]
      · rw [Bool.not_eq_true] at hyk
        by_cases hxk : (actionId x == k) = true
        · simp [List.filter_cons, hxk, hyk]
        · simp [List.filter_cons, hxk, hyk]
    · rw [List.orderedInsert, if_neg hxy]
      by_cases hyk : (actionId y == k) = true
      · -- `y` has the key; `x` cannot (a tie would make `keyLE x y` hold)
        by_cases hxk : (actionId x == k) = true
        · exfalso
          apply hxy
          show leOptStr (actionId x) (actionId y) = true
          rw [beq_iff_eq] at hxk hyk
          rw [hxk, hyk]
          exact leOptStr_refl k
        · simp only [List.filter_cons, hyk, if_pos]
          rw [ih]
          simp [hxk]
      · rw [Bool.not_eq_true] at hyk
        simp only [List.filter_cons, hyk]
        rw [ih]
        simp

theorem filter_sortActions (k : Option String) :
    ∀ l : List MidElem,
      (sortActions l).filter (fun a => actionId a == k) =
        l.filter (fun a => actionId a == k) := by
  intro l
  induction l with
  | nil => rfl
  | cons x l ih =>
    show (List.orderedInsert keyLE x (sortActions l)).filter _ = _
    rw [filter_orderedInsert_key k x (sortActions l), ih]
    by_cases hxk : (actionId x == k) = true
    · simp [List.filter_cons, hxk]
    · rw [Bool.not_eq_true] at hxk
      simp [List.filter_cons, hxk]

/-! ## `save_normalize` preserves the actions and sorts them -/

theorem sortActions_perm (l : List MidElem) : (sortActions l).Perm l :=
  List.perm_insertionSort keyLE l

theorem sortActions_sorted (l : List MidElem) : List.Sorted keyLE (sortActions l) :=
  @List.sorted_insertionSort MidElem keyLE _ ⟨keyLE_total⟩ ⟨keyLE_trans⟩ l

theorem rootActions_save_normalize (r : RootElem) :
    rootActions (save_normalize r) = sortActions (rootActions r) := by
  show (sortActions (rootActions r)).filter _ = _
  apply List.filter_eq_self.mpr
  intro a ha
  have hmem : a ∈ rootActions r := (sortActions_perm (rootActions r)).mem_iff.mp ha
  exact (List.mem_filter.mp hmem).2

theorem keyActions_save_normalize (r : RootElem) (i : Option String) :
    keyActions (save_normalize r) i = keyActions r i := by
  unfold keyActions
  rw [rootActions_save_normalize, filter_sortActions]

theorem mem_idKeys_iff (r : RootElem) (i : Option String) :
    i ∈ idKeys r ↔ keyActions r i ≠ [] := by
  unfold idKeys keyActions
  constructor
  · intro h
    obtain ⟨a, ha, hai⟩ := List.mem_map.mp h
    intro hnil
    have : a ∈ (rootActions r).filter (fun a => actionId a == i) :=
      List.mem_filter.mpr ⟨ha, by simp [hai]⟩
    rw [hnil] at this
    exact absurd this (by simp)
  · intro h
    obtain ⟨a, ha⟩ := List.exists_mem_of_ne_nil _ h
    obtain ⟨ha1, ha2⟩ := List.mem_filter.mp ha
    exact List.mem_map.mpr ⟨a, ha1, by simpa using ha2⟩

theorem save_normalize_fixed (r : RootElem)
    (h1 : ∀ c ∈ r.children, c.tag = "action") (h2 : List.Sorted keyLE r.children) :
    save_normalize r = r := by
  unfold save_normalize sortActions
  have hroot : rootActions r = r.children :=
    List.filter_eq_self.mpr (fun a ha => by simp [h1 a ha])
  rw [hroot, List.Sorted.insertionSort_eq h2]

theorem save_normalize_idem (r : RootElem) :
    save_normalize (save_normalize r) = save_normalize r := by
  apply save_normalize_fixed
  · intro c hc
    have hmem : c ∈ rootActions r := (sortActions_perm (rootActions r)).mem_iff.mp hc
    have := (List.mem_filter.mp hmem).2
    simpa using this
  · exact sortActions_sorted (rootActions r)

/-! ## Facts about the merged per-id actions -/

theorem mem_of_getLast?_eq {l : List MidElem} {a : MidElem} (h : l.getLast? = some a) :
    a ∈ l := by
  have hx : a ∈ l.getLast? := by rw [h]; rfl
  obtain ⟨hne, heq⟩ := List.mem_getLast?_eq_getLast hx
  rw [heq]
  exact List.getLast_mem hne

theorem actionsDictGet_facts (r : RootElem) (i : Option String) (a : MidElem)
    (h : actionsDictGet r i = some a) :
    a ∈ rootActions r ∧ a.tag = "action" ∧ actionId a = i := by
  have hmem : a ∈ keyActions r i := mem_of_getLast?_eq h
  obtain ⟨h1, h2⟩ := List.mem_filter.mp hmem
  refine ⟨h1, ?_, by simpa using h2⟩
  have := (List.mem_filter.mp h1).2
  simpa using this

theorem shortcutSet_mkAction (i : Option String) : shortcutSet (mkAction i) = [] := by
  cases i <;> rfl

theorem mergedActionW_actionId (w m : RootElem) (i : Option String) :
    actionId (mergedActionW w m i) = i := by
  unfold mergedActionW
  cases h : actionsDictGet w i with
  | some a => rw [add_shortcuts_actionId]; exact (actionsDictGet_facts w i a h).2.2
  | none => rw [add_shortcuts_actionId]; exact actionId_mkAction i

theorem mergedActionM_actionId (w m : RootElem) (i : Option String) :
    actionId (mergedActionM w m i) = i := by
  unfold mergedActionM
  cases h : actionsDictGet m i with
  | some a => rw [add_shortcuts_actionId]; exact (actionsDictGet_facts m i a h).2.2
  | none => rw [add_shortcuts_actionId]; exact actionId_mkAction i

theorem mergedActionW_tag (w m : RootElem) (i : Option String) :
    (mergedActionW w m i).tag = "action" := by
  unfold mergedActionW
  cases h : actionsDictGet w i with
  | some a => rw [add_shortcuts_tag]; exact (actionsDictGet_facts w i a h).2.1
  | none => rw [add_shortcuts_tag]; exact mkAction_tag i

theorem mergedActionM_tag (w m : RootElem) (i : Option String) :
    (mergedActionM w m i).tag = "action" := by
  unfold mergedActionM
  cases h : actionsDictGet m i with
  | some a => rw [add_shortcuts_tag]; exact (actionsDictGet_facts m i a h).2.1
  | none => rw [add_shortcuts_tag]; exact mkAction_tag i

theorem mem_stepShortcuts_w (w m : RootElem) (i : Option String) (k : String) :
    k ∈ (stepShortcuts w m i).1 ↔
      k ∈ origKeys w i ∨ ∃ s ∈ origKeys m i, convert_shortcut s false = k := by
  show k ∈ dedupFirstS _ ↔ _
  rw [mem_dedupFirstS]
  simp [List.mem_append, List.mem_map]

theorem mem_stepShortcuts_m (w m : RootElem) (i : Option String) (k : String) :
    k ∈ (stepShortcuts w m i).2 ↔
      k ∈ origKeys m i ∨ ∃ s ∈ origKeys w i, convert_shortcut s true = k := by
  show k ∈ dedupFirstS _ ↔ _
  rw [mem_dedupFirstS]
  simp [List.mem_append, List.mem_map]

theorem origKeys_eq_of_dict_some {r : RootElem} {i : Option String} {a : MidElem}
    (h : actionsDictGet r i = some a) : origKeys r i = shortcutSet a := by
  unfold origKeys
  rw [h]

theorem origKeys_eq_of_dict_none {r : RootElem} {i : Option String}
    (h : actionsDictGet r i = none) : origKeys r i = [] := by
  unfold origKeys
  rw [h]

theorem shortcutSet_mergedActionW_eq (w m : RootElem) (i : Option String) :
    shortcutSet (mergedActionW w m i) =
      origKeys w i ++
        (stepShortcuts w m i).1.filter (fun k => !((origKeys w i).contains k)) := by
  unfold mergedActionW
  cases h : actionsDictGet w i with
  | some a =>
    rw [shortcutSet_add_shortcuts, origKeys_eq_of_dict_some h]
  | none =>
    rw [shortcutSet_add_shortcuts, origKeys_eq_of_dict_none h, shortcutSet_mkAction]

theorem shortcutSet_mergedActionM_eq (w m : RootElem) (i : Option String) :
    shortcutSet (mergedActionM w m i) =
      origKeys m i ++
        (stepShortcuts w m i).2.filter (fun k => !((origKeys m i).contains k)) := by
  unfold mergedActionM
  cases h : actionsDictGet m i with
  | some a =>
    rw [shortcutSet_add_shortcuts, origKeys_eq_of_dict_some h]
  | none =>
    rw [shortcutSet_add_shortcuts, origKeys_eq_of_dict_none h, shortcutSet_mkAction]

theorem mem_shortcutSet_mergedActionW (w m : RootElem) (i : Option String) (k : String) :
    k ∈ shortcutSet (mergedActionW w m i) ↔
      k ∈ origKeys w i ∨ ∃ s ∈ origKeys m i, convert_shortcut s false = k := by
  rw [shortcutSet_mergedActionW_eq]
  rw [List.mem_append, List.mem_filter]
  rw [mem_stepShortcuts_w]
  by_cases hk : k ∈ origKeys w i
  · simp [hk]
  · simp [hk]

theorem mem_shortcutSet_mergedActionM (w m : RootElem) (i : Option String) (k : String) :
    k ∈ shortcutSet (mergedActionM w m i) ↔
      k ∈ origKeys m i ∨ ∃ s ∈ origKeys w i, convert_shortcut s true = k := by
  rw [shortcutSet_mergedActionM_eq]
  rw [List.mem_append, List.mem_filter]
  rw [mem_stepShortcuts_m]
  by_cases hk : k ∈ origKeys m i
  · simp [hk]
  · simp [hk]

theorem nodup_shortcutSet_mergedActionW (w m : RootElem) (i : Option String)
    (h : (origKeys w i).Nodup) : (shortcutSet (mergedActionW w m i)).Nodup := by
  unfold mergedActionW
  cases hd : actionsDictGet w i with
  | some a =>
    exact nodup_shortcutSet_add a _ (origKeys_eq_of_dict_some hd ▸ h) (nodup_dedupFirstS _)
  | none =>
    exact nodup_shortcutSet_add (mkAction i) _ (by rw [shortcutSet_mkAction]; exact List.nodup_nil)
      (nodup_dedupFirstS _)

theorem nodup_shortcutSet_mergedActionM (w m : RootElem) (i : Option String)
    (h : (origKeys m i).Nodup) : (shortcutSet (mergedActionM w m i)).Nodup := by
  unfold mergedActionM
  cases hd : actionsDictGet m i with
  | some a =>
    exact nodup_shortcutSet_add a _ (origKeys_eq_of_dict_some hd ▸ h) (nodup_dedupFirstS _)
  | none =>
    exact nodup_shortcutSet_add (mkAction i) _ (by rw [shortcutSet_mkAction]; exact List.nodup_nil)
      (nodup_dedupFirstS _)

/-! ## Unique ids give at most one action per key; output keys come
from the input key sets -/

theorem length_filter_key_le_one :
    ∀ (l : List MidElem), (l.map actionId).Nodup →
      ∀ i, (l.filter (fun a => actionId a == i)).length ≤ 1 := by
  intro l
  induction l with
  | nil => intro _ i; simp
  | cons a l ih =>
    intro h i
    rw [List.map_cons, List.nodup_cons] at h
    by_cases hai : (actionId a == i) = true
    · rw [List.filter_cons, if_pos hai]
      have hnil : l.filter (fun b => actionId b == i) = [] := by
        apply List.filter_eq_nil_iff.mpr
        intro b hb hcon
        rw [beq_iff_eq] at hcon hai
        apply h.1
        exact List.mem_map.mpr ⟨b, hb, by rw [hcon, hai]⟩
      simp [hnil]
    · rw [Bool.not_eq_true] at hai
      rw [List.filter_cons, hai]
      simp only [Bool.false_eq_true, if_false]
      exact ih h.2 i

theorem length_keyActions_le_one (r : RootElem) (h : idsUnique r) (i : Option String) :
    (keyActions r i).length ≤ 1 :=
  length_filter_key_le_one (rootActions r) h i

theorem rootActions_syncOneSide_sub (r : RootElem) (j : Option String) (ks : List String)
    (a : MidElem) (ha : a ∈ rootActions (syncOneSide r j ks)) :
    a ∈ rootActions r ∨ actionId a = j := by
  rcases (syncOneSide_split r j ks).2 with ⟨u, x, v, h1, h2, h3, h4⟩ | ⟨h1, h2⟩
  · unfold rootActions at ha ⊢
    rw [h2] at ha
    rw [List.mem_filter] at ha
    obtain ⟨hmem, htag⟩ := ha
    rw [List.mem_append, List.mem_cons] at hmem
    rcases hmem with hu | hfx | hv
    · left
      rw [List.mem_filter, h1]
      exact ⟨by simp [hu], htag⟩
    · right
      rw [hfx, add_shortcuts_actionId]
      exact ((qFun_true_iff j x).mp h3).2
    · left
      rw [List.mem_filter, h1]
      exact ⟨by simp [hv], htag⟩
  · unfold rootActions at ha ⊢
    rw [h1, List.filter_append, List.mem_append] at ha
    rcases ha with h | h
    · left; exact h
    · right
      rw [List.mem_filter] at h
      have := h.1
      simp at this
      rw [this, add_shortcuts_actionId, actionId_mkAction]

/-- Every action key present after the merge was present in one of the
two inputs. -/
theorem sync_core_keys_sub (w m : RootElem) :
    (∀ a ∈ rootActions (sync_core w m).1,
      actionId a ∈ idKeys w ∨ actionId a ∈ idKeys m) ∧
    (∀ a ∈ rootActions (sync_core w m).2,
      actionId a ∈ idKeys w ∨ actionId a ∈ idKeys m) := by
  unfold sync_core
  refine foldl_invariant
    (fun (s : RootElem × RootElem) =>
      (∀ a ∈ rootActions s.1, actionId a ∈ idKeys w ∨ actionId a ∈ idKeys m) ∧
      (∀ a ∈ rootActions s.2, actionId a ∈ idKeys w ∨ actionId a ∈ idKeys m))
    _ _ (w, m) ⟨?_, ?_⟩ ?_
  · intro a ha
    left
    exact List.mem_map.mpr ⟨a, ha, rfl⟩
  · intro a ha
    right
    exact List.mem_map.mpr ⟨a, ha, rfl⟩
  · intro s j hj hs
    have hjmem : j ∈ idKeys w ∨ j ∈ idKeys m :=
      List.mem_append.mp ((mem_dedupFirst j _).mp hj)
    constructor
    · intro a ha
      rcases rootActions_syncOneSide_sub s.1 j _ a ha with h | h
      · exact hs.1 a h
      · rw [h]; exact hjmem
    · intro a ha
      rcases rootActions_syncOneSide_sub s.2 j _ a ha with h | h
      · exact hs.2 a h
      · rw [h]; exact hjmem

/-! ## Further shared consequences of the central lemma -/

theorem mem_rootActions_save_normalize (r : RootElem) (a : MidElem) :
    a ∈ rootActions (save_normalize r) ↔ a ∈ rootActions r := by
  rw [rootActions_save_normalize]
  exact (sortActions_perm _).mem_iff

/-- The id sets of the two merged documents both equal the union of
the input id sets. -/
theorem sync_core_mem_idKeys (w m : RootElem) (hw : idsUnique w) (hm : idsUnique m)
    (i : Option String) :
    (i ∈ idKeys (sync_core w m).1 ↔ (i ∈ idKeys w ∨ i ∈ idKeys m)) ∧
    (i ∈ idKeys (sync_core w m).2 ↔ (i ∈ idKeys w ∨ i ∈ idKeys m)) := by
  constructor
  · rw [mem_idKeys_iff]
    constructor
    · intro hne
      obtain ⟨a, ha⟩ := List.exists_mem_of_ne_nil _ hne
      obtain ⟨ha1, ha2⟩ := List.mem_filter.mp ha
      have hsub := (sync_core_keys_sub w m).1 a ha1
      rw [beq_iff_eq] at ha2
      rw [← ha2]
      exact hsub
    · intro hi
      rw [(sync_core_keyActions w m i (length_keyActions_le_one w hw _)
        (length_keyActions_le_one m hm _) hi).1]
      simp
  · rw [mem_idKeys_iff]
    constructor
    · intro hne
      obtain ⟨a, ha⟩ := List.exists_mem_of_ne_nil _ hne
      obtain ⟨ha1, ha2⟩ := List.mem_filter.mp ha
      have hsub := (sync_core_keys_sub w m).2 a ha1
      rw [beq_iff_eq] at ha2
      rw [← ha2]
      exact hsub
    · intro hi
      rw [(sync_core_keyActions w m i (length_keyActions_le_one w hw _)
        (length_keyActions_le_one m hm _) hi).2]
      simp

theorem origKeys_nodup (r : RootElem) (h : ∀ a ∈ rootActions r, (shortcutSet a).Nodup)
    (i : Option String) : (origKeys r i).Nodup := by
  unfold origKeys
  cases hd : actionsDictGet r i with
  | some a => exact h a (actionsDictGet_facts r i a hd).1
  | none => exact List.nodup_nil

theorem tokenFree_origKeys (tok : List Char) (r : RootElem) (h : tokenFree tok r)
    (i : Option String) : ∀ t ∈ origKeys r i, containsTok tok t.data = false := by
  unfold origKeys
  cases hd : actionsDictGet r i with
  | some a => exact h a (actionsDictGet_facts r i a hd).1
  | none => intro t ht; exact absurd ht (by simp)

/-- When the unique key-`i` action already holds every keystroke to be
added, the merge step leaves the document unchanged. -/
theorem syncOneSide_id (r : RootElem) (i : Option String) (ks : List String) (x0 : MidElem)
    (hx : r.children.filter (qFun i) = [x0]) (hks : ∀ k ∈ ks, k ∈ shortcutSet x0) :
    syncOneSide r i ks = r := by
  cases h : updateLast (qFun i) (fun a => add_shortcuts a ks) r.children with
  | none =>
    exfalso
    have := (updateLast_none_iff _ _ _).mp h
    have hnil : r.children.filter (qFun i) = [] :=
      List.filter_eq_nil_iff.mpr (fun y hy => by simp [this y hy])
    rw [hx] at hnil
    exact absurd hnil (by simp)
  | some cs =>
    obtain ⟨u, x, v, h1, h2, h3, h4⟩ := updateLast_some_split _ _ _ _ h
    have hv : v.filter (qFun i) = [] :=
      List.filter_eq_nil_iff.mpr (fun y hy => by simp [h4 y hy])
    rw [h1, List.filter_append] at hx
    simp only [List.filter_cons, h3, if_pos, hv] at hx
    have hxx0 : x = x0 := by
      cases hfu : u.filter (qFun i) with
      | cons a b => rw [hfu] at hx; simp at hx
      | nil => rw [hfu] at hx; simpa using hx
    have hfx : add_shortcuts x ks = x := by
      rw [hxx0]
      exact add_shortcuts_id x0 ks hks
    have hcs : cs = r.children := by
      rw [h2, hfx, ← h1]
    have he : syncOneSide r i ks = { r with children := cs } := by
      unfold syncOneSide
      rw [h]
    rw [he, hcs]

/-- A merge step preserves "is an extension of `a` by appended
keyboard shortcuts" for the actions of the document. -/
theorem exists_ext_syncOneSide (r : RootElem) (j : Option String) (ks : List String)
    (a a' : MidElem) (ha' : a' ∈ rootActions r) (hext : actionExtends a a') :
    ∃ a'' ∈ rootActions (syncOneSide r j ks), actionExtends a a'' := by
  have hext_add : actionExtends a (add_shortcuts a' ks) := by
    obtain ⟨he1, he2, he3, he4⟩ := hext
    refine ⟨by rw [add_shortcuts_tag]; exact he1, by rw [add_shortcuts_attrs]; exact he2,
      he3.trans (List.prefix_append _ _), ?_⟩
    intro s hs
    rw [show (add_shortcuts a' ks).children = a'.children ++
      (ks.filter (fun k => !((shortcutSet a').contains k))).map mkShortcut from rfl] at hs
    rw [List.drop_append_eq_append_drop] at hs
    rcases List.mem_append.mp hs with h | h
    · exact he4 s h
    · obtain ⟨k, -, hk⟩ := List.mem_map.mp (List.mem_of_mem_drop h)
      rw [← hk]
      rfl
  obtain ⟨hmem, htag⟩ := List.mem_filter.mp ha'
  rcases (syncOneSide_split r j ks).2 with ⟨u, x, v, h1, h2, h3, h4⟩ | ⟨h1, h2⟩
  · rw [h1, List.mem_append, List.mem_cons] at hmem
    rcases hmem with hu | hax | hv
    · exact ⟨a', List.mem_filter.mpr ⟨by rw [h2]; simp [hu], htag⟩, hext⟩
    · refine ⟨add_shortcuts a' ks, ?_, hext_add⟩
      refine List.mem_filter.mpr ⟨?_, by rw [add_shortcuts_tag]; exact htag⟩
      rw [h2, hax]
      simp
    · exact ⟨a', List.mem_filter.mpr ⟨by rw [h2]; simp [hv], htag⟩, hext⟩
  · exact ⟨a', List.mem_filter.mpr ⟨by rw [h1]; simp [hmem], htag⟩, hext⟩

/-! ## Claim theorems -/

/-- C4: round-trip translation law.  For every keystroke string `s`
containing no occurrence of the token `meta`,
`convert_shortcut(convert_shortcut(s, to_mac=True), to_mac=False) = s`
under the substring-replace semantics. -/
theorem c4_roundtrip (s : String) (h : containsTok metaTok s.data = false) :
    convert_shortcut (convert_shortcut s true) false = s :=
  convert_shortcut_roundtrip_win s h

/-- Witness for C4 at the concrete keystroke `ctrl+shift+v`. -/
theorem c4_roundtrip_witness :
    containsTok metaTok "ctrl+shift+v".data = false ∧
    convert_shortcut (convert_shortcut "ctrl+shift+v" true) false = "ctrl+shift+v" :=
  ⟨by decide, c4_roundtrip "ctrl+shift+v" (by decide)⟩

/-- C10: `save_keymap` serialises only the sorted action children:
every direct child of the written root is an `action` element, the
written actions are exactly (a permutation of) the root's action
children, and every non-action child of the root is dropped. -/
theorem c10_save_drops_non_actions (r : RootElem) :
    (∀ c ∈ (save_normalize r).children, c.tag = "action") ∧
    (save_normalize r).children.Perm (rootActions r) ∧
    save_keymap r = serializeRoot (save_normalize r) := by
  refine ⟨?_, sortActions_perm (rootActions r), rfl⟩
  intro c hc
  have hmem : c ∈ rootActions r := (sortActions_perm (rootActions r)).mem_iff.mp hc
  have := (List.mem_filter.mp hmem).2
  simpa using this

/-- C7: `save_keymap` reorders the action children ascending by id
(stable: the actions of each id keep their relative order), and saving
an already-sorted all-action document re-serialises it to the identical
byte sequence. -/
theorem c7_save_sorted (r : RootElem) :
    List.Sorted keyLE (save_normalize r).children ∧
    (save_normalize r).children.Perm (rootActions r) ∧
    (∀ k, (save_normalize r).children.filter (fun a => actionId a == k) =
      (rootActions r).filter (fun a => actionId a == k)) ∧
    ((∀ c ∈ r.children, c.tag = "action") → List.Sorted keyLE r.children →
      save_keymap r = serializeRoot r) := by
  refine ⟨sortActions_sorted (rootActions r), sortActions_perm (rootActions r), ?_, ?_⟩
  · intro k
    exact filter_sortActions k (rootActions r)
  · intro h1 h2
    unfold save_keymap
    rw [save_normalize_fixed r h1 h2]

/-- Witness for C7 at the concrete paste document. -/
theorem c7_save_sorted_witness :
    List.Sorted keyLE (save_normalize docPasteW).children ∧
    save_keymap docPasteW = serializeRoot docPasteW :=
  ⟨(c7_save_sorted docPasteW).1, (c7_save_sorted docPasteW).2.2.2 (by decide) (by decide)⟩

/-- C8: if loading either input file fails (missing, unreadable or
malformed), the run aborts before anything is written: the result is
the failure value and no path is updated. -/
theorem c8_load_failure_aborts (parse : String → Option RootElem)
    (fs : String → Option String) (wp mp : String)
    (h : (fs wp).bind parse = none ∨ (fs mp).bind parse = none) :
    sync_keymaps_files parse fs wp mp = none := by
  unfold sync_keymaps_files
  rcases h with h | h
  · rw [h]
  · rw [h]
    cases (fs wp).bind parse <;> rfl

/-- Witness for C8 with an unparseable input. -/
theorem c8_load_failure_aborts_witness :
    (((fun _ => none : String → Option String) "w.xml").bind
      (fun _ => none : String → Option RootElem) = none ∨
      ((fun _ => none : String → Option String) "m.xml").bind
      (fun _ => none : String → Option RootElem) = none) ∧
    sync_keymaps_files (fun _ => none) (fun _ => none) "w.xml" "m.xml" = none :=
  ⟨Or.inl rfl, c8_load_failure_aborts (fun _ => none) (fun _ => none) "w.xml" "m.xml" (Or.inl rfl)⟩

/-- C1: after the merge, for every action id present in either input,
the written Windows document holds exactly one action with that id,
whose keystroke set is the union of the Windows document's own
original keystrokes and the Mac document's original keystrokes
translated to the Windows convention (`meta` replaced by `ctrl`); and
symmetrically for the Mac document (`ctrl` replaced by `meta`). -/
theorem c1_shortcut_union (w m : RootElem) (hw : Wf w) (hm : Wf m) (i : String)
    (hi : some i ∈ idKeys w ∨ some i ∈ idKeys m) :
    ∃ aw am,
      keyActions (save_normalize (sync_core w m).1) (some i) = [aw] ∧
      keyActions (save_normalize (sync_core w m).2) (some i) = [am] ∧
      (∀ k, k ∈ shortcutSet aw ↔
        (k ∈ origKeys w (some i) ∨
          ∃ s ∈ origKeys m (some i), convert_shortcut s false = k)) ∧
      (∀ k, k ∈ shortcutSet am ↔
        (k ∈ origKeys m (some i) ∨
          ∃ s ∈ origKeys w (some i), convert_shortcut s true = k)) := by
  obtain ⟨h1, h2⟩ := sync_core_keyActions w m (some i)
    (length_keyActions_le_one w hw.2.1 _) (length_keyActions_le_one m hm.2.1 _) hi
  refine ⟨mergedActionW w m (some i), mergedActionM w m (some i), ?_, ?_, ?_, ?_⟩
  · rw [keyActions_save_normalize]; exact h1
  · rw [keyActions_save_normalize]; exact h2
  · intro k; exact mem_shortcutSet_mergedActionW w m (some i) k
  · intro k; exact mem_shortcutSet_mergedActionM w m (some i) k

/-- Witness for C1 at the spec's paste scenario. -/
theorem c1_shortcut_union_witness :
    Wf docPasteW ∧ Wf docPasteM ∧ (some "paste" ∈ idKeys docPasteW ∨ some "paste" ∈ idKeys docPasteM) ∧
    (∃ aw am,
      keyActions (save_normalize (sync_core docPasteW docPasteM).1) (some "paste") = [aw] ∧
      keyActions (save_normalize (sync_core docPasteW docPasteM).2) (some "paste") = [am] ∧
      (∀ k, k ∈ shortcutSet aw ↔
        (k ∈ origKeys docPasteW (some "paste") ∨
          ∃ s ∈ origKeys docPasteM (some "paste"), convert_shortcut s false = k)) ∧
      (∀ k, k ∈ shortcutSet am ↔
        (k ∈ origKeys docPasteM (some "paste") ∨
          ∃ s ∈ origKeys docPasteW (some "paste"), convert_shortcut s true = k))) :=
  ⟨by decide, by decide, by decide,
    c1_shortcut_union docPasteW docPasteM (by decide) (by decide) "paste" (by decide)⟩

/-- C2: after the merge, the set of action ids present in the written
Windows document, the set present in the written Mac document, and the
union of the two original id sets all coincide. -/
theorem c2_id_union (w m : RootElem) (hw : Wf w) (hm : Wf m) (i : Option String) :
    (i ∈ idKeys (save_normalize (sync_core w m).1) ↔ (i ∈ idKeys w ∨ i ∈ idKeys m)) ∧
    (i ∈ idKeys (save_normalize (sync_core w m).2) ↔ (i ∈ idKeys w ∨ i ∈ idKeys m)) := by
  have hmain := sync_core_mem_idKeys w m hw.2.1 hm.2.1 i
  constructor
  · rw [mem_idKeys_iff, keyActions_save_normalize, ← mem_idKeys_iff]
    exact hmain.1
  · rw [mem_idKeys_iff, keyActions_save_normalize, ← mem_idKeys_iff]
    exact hmain.2

/-- Witness for C2 at the spec's copy scenario (action present on one
side only). -/
theorem c2_id_union_witness :
    Wf docMetaW ∧ Wf docEmptyRoot ∧
    ((some "a" ∈ idKeys (save_normalize (sync_core docMetaW docEmptyRoot).1) ↔
      (some "a" ∈ idKeys docMetaW ∨ some "a" ∈ idKeys docEmptyRoot)) ∧
    (some "a" ∈ idKeys (save_normalize (sync_core docMetaW docEmptyRoot).2) ↔
      (some "a" ∈ idKeys docMetaW ∨ some "a" ∈ idKeys docEmptyRoot))) :=
  ⟨by decide, by decide, c2_id_union docMetaW docEmptyRoot (by decide) (by decide) (some "a")⟩

/-- C9 counterexample: on documents whose actions lack an `id`
attribute, the run does not fail with a validation error: it completes,
merges the two id-less actions under the undefined (`none`) key — the
Mac side acquires the translated keystroke `meta+x` — and writes both
files. -/
theorem c9_counterexample :
    (∃ a ∈ rootActions docNoIdW, actionId a = none) ∧
    (∃ a ∈ rootActions docNoIdM, actionId a = none) ∧
    sync_keymaps docNoIdW docNoIdM =
      ("<keymap>\n  <action>\n    <keyboard-shortcut first-keystroke=\"ctrl+x\"/>\n  </action>\n</keymap>",
       "<keymap>\n  <action>\n    <keyboard-shortcut first-keystroke=\"meta+x\"/>\n  </action>\n</keymap>") ∧
    (∃ a ∈ rootActions (sync_core docNoIdW docNoIdM).2,
      actionId a = none ∧ "meta+x" ∈ shortcutSet a) := by
  decide

/-- Amended C9: an action without an `id` attribute is not rejected;
the merge proceeds with the missing id as the null key, and on
documents whose single actions both lack ids the keystroke sets are
merged between those actions exactly as for matching ids.  (On other
shapes the run can instead die later in the save-time sort with a
non-descriptive `TypeError`; no path validates the input.) -/
theorem c9_amended_no_id_merge (w m : RootElem) (aw am : MidElem)
    (hw : rootActions w = [aw]) (hm : rootActions m = [am])
    (haw : actionId aw = none) (ham : actionId am = none)
    (_hst : shortcutsTotal w) (_hsm : shortcutsTotal m) :
    ∃ aw' am',
      keyActions (save_normalize (sync_core w m).1) none = [aw'] ∧
      keyActions (save_normalize (sync_core w m).2) none = [am'] ∧
      (∀ k, k ∈ shortcutSet aw' ↔
        (k ∈ shortcutSet aw ∨ ∃ s ∈ shortcutSet am, convert_shortcut s false = k)) ∧
      (∀ k, k ∈ shortcutSet am' ↔
        (k ∈ shortcutSet am ∨ ∃ s ∈ shortcutSet aw, convert_shortcut s true = k)) := by
  have hkw : keyActions w none = [aw] := by
    unfold keyActions
    rw [hw]
    simp [List.filter_cons, haw]
  have hkm : keyActions m none = [am] := by
    unfold keyActions
    rw [hm]
    simp [List.filter_cons, ham]
  have hdw : actionsDictGet w none = some aw := by
    unfold actionsDictGet
    rw [hkw]
    rfl
  have hdm : actionsDictGet m none = some am := by
    unfold actionsDictGet
    rw [hkm]
    rfl
  obtain ⟨h1, h2⟩ := sync_core_keyActions w m none (by rw [hkw]; simp) (by rw [hkm]; simp)
    (Or.inl ((mem_idKeys_iff w none).mpr (by rw [hkw]; simp)))
  refine ⟨mergedActionW w m none, mergedActionM w m none, ?_, ?_, ?_, ?_⟩
  · rw [keyActions_save_normalize]; exact h1
  · rw [keyActions_save_normalize]; exact h2
  · intro k
    rw [mem_shortcutSet_mergedActionW, origKeys_eq_of_dict_some hdw,
      origKeys_eq_of_dict_some hdm]
  · intro k
    rw [mem_shortcutSet_mergedActionM, origKeys_eq_of_dict_some hdw,
      origKeys_eq_of_dict_some hdm]

/-- Witness for the amended C9 at the concrete id-less documents. -/
theorem c9_amended_no_id_merge_witness :
    ∃ aw' am',
      keyActions (save_normalize (sync_core docNoIdW docNoIdM).1) none = [aw'] ∧
      keyActions (save_normalize (sync_core docNoIdW docNoIdM).2) none = [am'] ∧
      (∀ k, k ∈ shortcutSet aw' ↔
        (k ∈ shortcutSet (⟨"action", [],
          [⟨"keyboard-shortcut", [("first-keystroke", "ctrl+x")]⟩]⟩ : MidElem) ∨
          ∃ s ∈ shortcutSet (⟨"action", [], []⟩ : MidElem), convert_shortcut s false = k)) ∧
      (∀ k, k ∈ shortcutSet am' ↔
        (k ∈ shortcutSet (⟨"action", [], []⟩ : MidElem) ∨
          ∃ s ∈ shortcutSet (⟨"action", [],
            [⟨"keyboard-shortcut", [("first-keystroke", "ctrl+x")]⟩]⟩ : MidElem),
            convert_shortcut s true = k)) :=
  c9_amended_no_id_merge docNoIdW docNoIdM
    ⟨"action", [], [⟨"keyboard-shortcut", [("first-keystroke", "ctrl+x")]⟩]⟩
    ⟨"action", [], []⟩
    (by decide) (by decide) (by decide) (by decide) (by decide) (by decide)

/-- C5 counterexample: the claim fails for inputs that already violate
the keystroke-set invariant.  A well-formed pair of documents (ids
present, unique, all shortcuts carrying `first-keystroke`) in which one
action lists `ctrl+c` twice yields a merged action whose keystroke
list still contains the duplicate. -/
theorem c5_counterexample :
    Wf docDupW ∧ Wf docEmptyRoot ∧
    ∃ a ∈ rootActions (sync_core docDupW docEmptyRoot).1, ¬ (shortcutSet a).Nodup := by
  decide

/-- Amended C5: a keystroke already present (by exact string match) is
never re-added — each merged action's keystroke list is the original
list followed only by keystrokes not previously present — and,
provided each input action's keystroke list is itself duplicate-free
(the spec's data-model invariant), every merged action's keystroke
list is duplicate-free. -/
theorem c5_amended_no_duplicates (w m : RootElem) (hw : Wf w) (hm : Wf m)
    (hnw : ∀ a ∈ rootActions w, (shortcutSet a).Nodup)
    (hnm : ∀ a ∈ rootActions m, (shortcutSet a).Nodup) :
    (∀ a ∈ rootActions (save_normalize (sync_core w m).1), (shortcutSet a).Nodup) ∧
    (∀ a ∈ rootActions (save_normalize (sync_core w m).2), (shortcutSet a).Nodup) ∧
    (∀ (i : Option String) x a', keyActions w i = [x] →
      keyActions (sync_core w m).1 i = [a'] →
      ∃ extra, shortcutSet a' = shortcutSet x ++ extra ∧ ∀ k ∈ extra, k ∉ shortcutSet x) ∧
    (∀ (i : Option String) x a', keyActions m i = [x] →
      keyActions (sync_core w m).2 i = [a'] →
      ∃ extra, shortcutSet a' = shortcutSet x ++ extra ∧ ∀ k ∈ extra, k ∉ shortcutSet x) := by
  refine ⟨?_, ?_, ?_, ?_⟩
  · intro a ha
    rw [mem_rootActions_save_normalize] at ha
    have hain : a ∈ keyActions (sync_core w m).1 (actionId a) :=
      List.mem_filter.mpr ⟨ha, by simp⟩
    have hiu : actionId a ∈ idKeys w ∨ actionId a ∈ idKeys m :=
      (sync_core_keys_sub w m).1 a ha
    have hmain := (sync_core_keyActions w m (actionId a)
      (length_keyActions_le_one w hw.2.1 _) (length_keyActions_le_one m hm.2.1 _) hiu).1
    rw [hmain] at hain
    simp at hain
    rw [hain]
    exact nodup_shortcutSet_mergedActionW w m _ (origKeys_nodup w hnw _)
  · intro a ha
    rw [mem_rootActions_save_normalize] at ha
    have hain : a ∈ keyActions (sync_core w m).2 (actionId a) :=
      List.mem_filter.mpr ⟨ha, by simp⟩
    have hiu : actionId a ∈ idKeys w ∨ actionId a ∈ idKeys m :=
      (sync_core_keys_sub w m).2 a ha
    have hmain := (sync_core_keyActions w m (actionId a)
      (length_keyActions_le_one w hw.2.1 _) (length_keyActions_le_one m hm.2.1 _) hiu).2
    rw [hmain] at hain
    simp at hain
    rw [hain]
    exact nodup_shortcutSet_mergedActionM w m _ (origKeys_nodup m hnm _)
  · intro i x a' hx ha'
    have hi : i ∈ idKeys w := (mem_idKeys_iff w i).mpr (by rw [hx]; simp)
    have hmain := (sync_core_keyActions w m i (length_keyActions_le_one w hw.2.1 _)
      (length_keyActions_le_one m hm.2.1 _) (Or.inl hi)).1
    rw [hmain] at ha'
    simp at ha'
    have hdw : actionsDictGet w i = some x := by
      unfold actionsDictGet
      rw [hx]
      rfl
    have ho : origKeys w i = shortcutSet x := origKeys_eq_of_dict_some hdw
    refine ⟨(stepShortcuts w m i).1.filter (fun k => !((origKeys w i).contains k)), ?_, ?_⟩
    · rw [← ha', shortcutSet_mergedActionW_eq, ho]
    · intro k hk
      have := (List.mem_filter.mp hk).2
      simp at this
      rw [← ho]
      exact this
  · intro i x a' hx ha'
    have hi : i ∈ idKeys m := (mem_idKeys_iff m i).mpr (by rw [hx]; simp)
    have hmain := (sync_core_keyActions w m i (length_keyActions_le_one w hw.2.1 _)
      (length_keyActions_le_one m hm.2.1 _) (Or.inr hi)).2
    rw [hmain] at ha'
    simp at ha'
    have hdm : actionsDictGet m i = some x := by
      unfold actionsDictGet
      rw [hx]
      rfl
    have ho : origKeys m i = shortcutSet x := origKeys_eq_of_dict_some hdm
    refine ⟨(stepShortcuts w m i).2.filter (fun k => !((origKeys m i).contains k)), ?_, ?_⟩
    · rw [← ha', shortcutSet_mergedActionM_eq, ho]
    · intro k hk
      have := (List.mem_filter.mp hk).2
      simp at this
      rw [← ho]
      exact this

/-- Witness for the amended C5 at the spec's paste scenario. -/
theorem c5_amended_no_duplicates_witness :
    Wf docPasteW ∧ Wf docPasteM ∧
    ((∀ a ∈ rootActions (save_normalize (sync_core docPasteW docPasteM).1),
        (shortcutSet a).Nodup) ∧
      (∀ a ∈ rootActions (save_normalize (sync_core docPasteW docPasteM).2),
        (shortcutSet a).Nodup) ∧
      (∀ (i : Option String) x a', keyActions docPasteW i = [x] →
        keyActions (sync_core docPasteW docPasteM).1 i = [a'] →
        ∃ extra, shortcutSet a' = shortcutSet x ++ extra ∧ ∀ k ∈ extra, k ∉ shortcutSet x) ∧
      (∀ (i : Option String) x a', keyActions docPasteM i = [x] →
        keyActions (sync_core docPasteW docPasteM).2 i = [a'] →
        ∃ extra, shortcutSet a' = shortcutSet x ++ extra ∧ ∀ k ∈ extra, k ∉ shortcutSet x)) :=
  ⟨by decide, by decide,
    c5_amended_no_duplicates docPasteW docPasteM (by decide) (by decide)
      (by decide) (by decide)⟩

/-- C6: the merge is monotonic.  Every action element of an input
document is still present in the corresponding written document with
the same tag and attributes, its original children unaltered as a
prefix, and only `keyboard-shortcut` elements appended — elements are
never removed or modified in place, apart from the save-time
reordering of the root's action children. -/
theorem c6_monotone (w m : RootElem) (_hw : Wf w) (_hm : Wf m) :
    (∀ a ∈ rootActions w,
      ∃ a' ∈ (save_normalize (sync_core w m).1).children, actionExtends a a') ∧
    (∀ b ∈ rootActions m,
      ∃ b' ∈ (save_normalize (sync_core w m).2).children, actionExtends b b') := by
  have hcore : (∀ a ∈ rootActions w,
      ∃ a' ∈ rootActions (sync_core w m).1, actionExtends a a') ∧
      (∀ b ∈ rootActions m, ∃ b' ∈ rootActions (sync_core w m).2, actionExtends b b') := by
    unfold sync_core
    refine foldl_invariant
      (fun (s : RootElem × RootElem) =>
        (∀ a ∈ rootActions w, ∃ a' ∈ rootActions s.1, actionExtends a a') ∧
        (∀ b ∈ rootActions m, ∃ b' ∈ rootActions s.2, actionExtends b b'))
      _ _ (w, m) ⟨?_, ?_⟩ ?_
    · intro a ha
      exact ⟨a, ha, rfl, rfl, List.prefix_refl _, by simp⟩
    · intro b hb
      exact ⟨b, hb, rfl, rfl, List.prefix_refl _, by simp⟩
    · intro s j hj hs
      constructor
      · intro a ha
        obtain ⟨a', ha', hext⟩ := hs.1 a ha
        exact exists_ext_syncOneSide s.1 j _ a a' ha' hext
      · intro b hb
        obtain ⟨b', hb', hext⟩ := hs.2 b hb
        exact exists_ext_syncOneSide s.2 j _ b b' hb' hext
  constructor
  · intro a ha
    obtain ⟨a', ha', hext⟩ := hcore.1 a ha
    refine ⟨a', ?_, hext⟩
    have hmem : a' ∈ rootActions (save_normalize (sync_core w m).1) :=
      (mem_rootActions_save_normalize _ _).mpr ha'
    exact (List.mem_filter.mp hmem).1
  · intro b hb
    obtain ⟨b', hb', hext⟩ := hcore.2 b hb
    refine ⟨b', ?_, hext⟩
    have hmem : b' ∈ rootActions (save_normalize (sync_core w m).2) :=
      (mem_rootActions_save_normalize _ _).mpr hb'
    exact (List.mem_filter.mp hmem).1

/-- Witness for C6 at the spec's paste scenario. -/
theorem c6_monotone_witness :
    Wf docPasteW ∧ Wf docPasteM ∧
    ((∀ a ∈ rootActions docPasteW,
        ∃ a' ∈ (save_normalize (sync_core docPasteW docPasteM).1).children, actionExtends a a') ∧
      (∀ b ∈ rootActions docPasteM,
        ∃ b' ∈ (save_normalize (sync_core docPasteW docPasteM).2).children, actionExtends b b')) :=
  ⟨by decide, by decide, c6_monotone docPasteW docPasteM (by decide) (by decide)⟩

/-- C3 counterexample: idempotence fails for a well-formed input pair
in which the Windows document already contains the Mac token `meta` in
a keystroke — the second run translates the `meta+x` keystroke it finds
in the Mac file back to `ctrl+x` and adds it to the Windows document,
so the outputs of running once and running twice differ. -/
theorem c3_counterexample :
    Wf docMetaW ∧ Wf docEmptyRoot ∧
    sync_twice docMetaW docEmptyRoot ≠ sync_keymaps docMetaW docEmptyRoot := by
  decide

/-- Amended C3: the merge-and-save is idempotent at the byte level for
every well-formed input pair whose Windows keystrokes contain no
occurrence of `meta` and whose Mac keystrokes contain no occurrence of
`ctrl`: the second run's merge adds no action or shortcut element, and
the files it writes are byte-identical to the first run's. -/
theorem c3_amended_idempotent (w m : RootElem) (hw : Wf w) (hm : Wf m)
    (htw : tokenFree metaTok w) (htm : tokenFree ctrlTok m) :
    sync_core (save_normalize (sync_core w m).1) (save_normalize (sync_core w m).2) =
      (save_normalize (sync_core w m).1, save_normalize (sync_core w m).2) ∧
    sync_twice w m = sync_keymaps w m := by
  have hstepid : ∀ i ∈ dedupFirst (idKeys (save_normalize (sync_core w m).1) ++
      idKeys (save_normalize (sync_core w m).2)),
      syncStep (save_normalize (sync_core w m).1) (save_normalize (sync_core w m).2)
        (save_normalize (sync_core w m).1, save_normalize (sync_core w m).2) i =
      (save_normalize (sync_core w m).1, save_normalize (sync_core w m).2) := by
    intro i hi
    have hiu : i ∈ idKeys w ∨ i ∈ idKeys m := by
      rcases List.mem_append.mp ((mem_dedupFirst i _).mp hi) with h | h
      · rw [mem_idKeys_iff, keyActions_save_normalize, ← mem_idKeys_iff] at h
        exact ((sync_core_mem_idKeys w m hw.2.1 hm.2.1 i).1).mp h
      · rw [mem_idKeys_iff, keyActions_save_normalize, ← mem_idKeys_iff] at h
        exact ((sync_core_mem_idKeys w m hw.2.1 hm.2.1 i).2).mp h
    obtain ⟨hmain1, hmain2⟩ := sync_core_keyActions w m i
      (length_keyActions_le_one w hw.2.1 _) (length_keyActions_le_one m hm.2.1 _) hiu
    have hkw : keyActions (save_normalize (sync_core w m).1) i = [mergedActionW w m i] := by
      rw [keyActions_save_normalize]
      exact hmain1
    have hkm : keyActions (save_normalize (sync_core w m).2) i = [mergedActionM w m i] := by
      rw [keyActions_save_normalize]
      exact hmain2
    have hdwn : actionsDictGet (save_normalize (sync_core w m).1) i =
        some (mergedActionW w m i) := by
      unfold actionsDictGet
      rw [hkw]
      rfl
    have hdmn : actionsDictGet (save_normalize (sync_core w m).2) i =
        some (mergedActionM w m i) := by
      unfold actionsDictGet
      rw [hkm]
      rfl
    have hOwn := origKeys_eq_of_dict_some hdwn
    have hOmn := origKeys_eq_of_dict_some hdmn
    have hksW : ∀ k ∈ (stepShortcuts (save_normalize (sync_core w m).1)
        (save_normalize (sync_core w m).2) i).1, k ∈ shortcutSet (mergedActionW w m i) := by
      intro k hk
      rw [mem_stepShortcuts_w, hOwn, hOmn] at hk
      rcases hk with hk | ⟨s, hs, hconv⟩
      · exact hk
      · rw [mem_shortcutSet_mergedActionM] at hs
        rcases hs with hs | ⟨t, ht, hconvt⟩
        · exact (mem_shortcutSet_mergedActionW w m i k).mpr (Or.inr ⟨s, hs, hconv⟩)
        · have htfree : containsTok metaTok t.data = false :=
            tokenFree_origKeys metaTok w htw i t ht
          have hkt : k = t := by
            rw [← hconv, ← hconvt]
            exact convert_shortcut_roundtrip_win t htfree
          rw [hkt]
          exact (mem_shortcutSet_mergedActionW w m i t).mpr (Or.inl ht)
    have hksM : ∀ k ∈ (stepShortcuts (save_normalize (sync_core w m).1)
        (save_normalize (sync_core w m).2) i).2, k ∈ shortcutSet (mergedActionM w m i) := by
      intro k hk
      rw [mem_stepShortcuts_m, hOwn, hOmn] at hk
      rcases hk with hk | ⟨s, hs, hconv⟩
      · exact hk
      · rw [mem_shortcutSet_mergedActionW] at hs
        rcases hs with hs | ⟨t, ht, hconvt⟩
        · exact (mem_shortcutSet_mergedActionM w m i k).mpr (Or.inr ⟨s, hs, hconv⟩)
        · have htfree : containsTok ctrlTok t.data = false :=
            tokenFree_origKeys ctrlTok m htm i t ht
          have hkt : k = t := by
            rw [← hconv, ← hconvt]
            exact convert_shortcut_roundtrip_mac t htfree
          rw [hkt]
          exact (mem_shortcutSet_mergedActionM w m i t).mpr (Or.inl ht)
    show (syncOneSide _ i _, syncOneSide _ i _) = _
    rw [syncOneSide_id _ i _ (mergedActionW w m i)
        (by rw [← keyActions_eq_filter]; exact hkw) hksW,
      syncOneSide_id _ i _ (mergedActionM w m i)
        (by rw [← keyActions_eq_filter]; exact hkm) hksM]
  have hA : sync_core (save_normalize (sync_core w m).1) (save_normalize (sync_core w m).2) =
      (save_normalize (sync_core w m).1, save_normalize (sync_core w m).2) := by
    unfold sync_core
    refine foldl_invariant
      (fun (s : RootElem × RootElem) =>
        s = (save_normalize (sync_core w m).1, save_normalize (sync_core w m).2))
      _ _ _ rfl ?_
    intro s j hj hs
    rw [hs]
    exact hstepid j hj
  refine ⟨hA, ?_⟩
  show sync_keymaps (save_normalize (sync_core w m).1) (save_normalize (sync_core w m).2) = _
  unfold sync_keymaps
  rw [hA]
  unfold save_keymap
  rw [save_normalize_idem, save_normalize_idem]

/-- Witness for the amended C3 at the spec's paste scenario. -/
theorem c3_amended_idempotent_witness :
    Wf docPasteW ∧ Wf docPasteM ∧
    tokenFree metaTok docPasteW ∧ tokenFree ctrlTok docPasteM ∧
    sync_twice docPasteW docPasteM = sync_keymaps docPasteW docPasteM :=
  ⟨by decide, by decide, by decide, by decide,
    (c3_amended_idempotent docPasteW docPasteM (by decide) (by decide)
      (by decide) (by decide)).2⟩
